import Mathlib

/-!
Verification of the femr ontology-graph engine against its specification.

The repository files at hand contain only the tutorial notebooks, the CI
configuration and the packaging metadata; the engine itself
(`femr.ontology.Ontology`, exercised by the notebook through
`get_description`, `get_parents`, `get_children`, `get_all_parents`,
`get_all_children`, `prune_to_dataset` and pickling) is not among them.
Every definition below is therefore modelled from the specification's
words: the Code Registry, the dual-indexed Edge Store, the Closure
Engine, the Pruner and the Persistence Layer, with string identifiers,
integer handles, and set-valued queries.
-/

namespace FemrOntology

/-- Modelled from the spec: one Code of the vocabulary (missing source
`femr.ontology`): its dense integer handle, its stable string identifier,
its optional human-readable description, and its two adjacency rows of the
dual-indexed Edge Store (direct parent handles and direct child handles). -/
structure CodeEntry where
  handle : Nat
  ident : String
  descr : Option String
  parents : List Nat
  children : List Nat
deriving DecidableEq

/-- Modelled from the spec: the Graph aggregate of all Codes and Edges,
an arena of Code records addressed by handle (missing source
`femr.ontology.Ontology`). -/
structure Graph where
  entries : List CodeEntry
deriving DecidableEq

/-- The list of registered handles, in arena order. -/
def handlesList (g : Graph) : List Nat := g.entries.map (fun e => e.handle)

/-- The list of registered identifiers, in arena order. -/
def identsList (g : Graph) : List String := g.entries.map (fun e => e.ident)

/-- Number of registered codes. -/
def numCodes (g : Graph) : Nat := g.entries.length

/-- The entry registered under a handle, if any. -/
def entryOf (g : Graph) (h : Nat) : Option CodeEntry :=
  g.entries.find? (fun e => e.handle == h)

/-- The entry registered under an identifier, if any. -/
def entryOfIdent (g : Graph) (id : String) : Option CodeEntry :=
  g.entries.find? (fun e => e.ident == id)

/-- Modelled from the spec: `handle_of(identifier) -> handle` of the Code
Registry (missing source), as an Option-valued lookup. -/
def handle_of (g : Graph) (id : String) : Option Nat :=
  (entryOfIdent g id).map (fun e => e.handle)

/-- Modelled from the spec: `identifier_of(handle) -> identifier` of the
Code Registry (missing source), as an Option-valued lookup. -/
def identifier_of (g : Graph) (h : Nat) : Option String :=
  (entryOf g h).map (fun e => e.ident)

/-- Modelled from the spec: `description_of(handle)` of the Code Registry
(missing source): the stored description or an absent marker. -/
def description_of (g : Graph) (h : Nat) : Option String :=
  (entryOf g h).bind (fun e => e.descr)

/-- Modelled from the spec: `parents_of(handle)` of the Edge Store (missing
source): the direct parent handles, empty if none or unregistered. -/
def parents_of (g : Graph) (h : Nat) : List Nat :=
  ((entryOf g h).map (fun e => e.parents)).getD []

/-- Modelled from the spec: `children_of(handle)` of the Edge Store (missing
source): the direct child handles, empty if none or unregistered. -/
def children_of (g : Graph) (h : Nat) : List Nat :=
  ((entryOf g h).map (fun e => e.children)).getD []

/-- One step of the adjacency relation: `b` is a direct parent of `a`. -/
def parentRel (g : Graph) (a b : Nat) : Prop := b ∈ parents_of g a

/-- One step of the adjacency relation: `b` is a direct child of `a`. -/
def childRel (g : Graph) (a b : Nat) : Prop := b ∈ children_of g a

/-- The adjacency-step relation of a neighbour function. -/
def stepRel (adj : Nat → List Nat) (a b : Nat) : Prop := b ∈ adj a

/-- One round of the Closure Engine: union the frontier with every handle
one adjacency step away from it. -/
def closureStep (adj : Nat → List Nat) (s : Finset Nat) : Finset Nat :=
  s ∪ s.biUnion (fun h => (adj h).toFinset)

/-- Saturate the adjacency step `n` times, starting from a seed set. -/
def closureIter (adj : Nat → List Nat) (n : Nat) (s : Finset Nat) : Finset Nat :=
  (closureStep adj)^[n] s

/-- Modelled from the spec: `all_ancestors(handle)` of the Closure Engine
(missing source, publicly `get_all_parents`): every handle reachable from
the start by repeatedly following `parents_of`, excluding the start handle
itself; the traversal is saturated enough rounds to have reached its fixed
point on any graph, cyclic ones included. -/
def all_ancestors (g : Graph) (h : Nat) : Finset Nat :=
  closureIter (parents_of g) (numCodes g + 1) {h} \ {h}

/-- Modelled from the spec: `all_descendants(handle)` of the Closure Engine
(missing source, publicly `get_all_children`), symmetric over
`children_of`. -/
def all_descendants (g : Graph) (h : Nat) : Finset Nat :=
  closureIter (children_of g) (numCodes g + 1) {h} \ {h}

/-- Whether an identifier is registered (the notebook queries are keyed by
identifier strings). -/
def isKnown (g : Graph) (id : String) : Bool := (handle_of g id).isSome

/-- Modelled from the spec: the public `get_description(code)` of the
missing `femr.ontology.Ontology`, keyed by identifier. -/
def get_description (g : Graph) (id : String) : Option String :=
  (entryOfIdent g id).bind (fun e => e.descr)

/-- The identifiers of a list of handles (unregistered handles dropped). -/
def identsOfHandles (g : Graph) (hs : List Nat) : Finset String :=
  (hs.filterMap (identifier_of g)).toFinset

/-- Modelled from the spec: the public `get_parents(code)` of the missing
`femr.ontology.Ontology`: the set of identifiers of the direct parents. -/
def get_parents (g : Graph) (id : String) : Finset String :=
  ((handle_of g id).map (fun h => identsOfHandles g (parents_of g h))).getD ∅

/-- Modelled from the spec: the public `get_children(code)` of the missing
`femr.ontology.Ontology`: the set of identifiers of the direct children. -/
def get_children (g : Graph) (id : String) : Finset String :=
  ((handle_of g id).map (fun h => identsOfHandles g (children_of g h))).getD ∅

/-- The identifiers of a finite set of handles (unregistered dropped). -/
def identsOfFinset (g : Graph) (s : Finset Nat) : Finset String :=
  s.biUnion (fun h => ((identifier_of g h).toList).toFinset)

/-- Modelled from the spec: the public `get_all_parents(code)` of the
missing `femr.ontology.Ontology`: identifiers of all transitive parents. -/
def get_all_parents (g : Graph) (id : String) : Finset String :=
  ((handle_of g id).map (fun h => identsOfFinset g (all_ancestors g h))).getD ∅

/-- Modelled from the spec: the public `get_all_children(code)` of the
missing `femr.ontology.Ontology`: identifiers of all transitive children. -/
def get_all_children (g : Graph) (id : String) : Finset String :=
  ((handle_of g id).map (fun h => identsOfFinset g (all_descendants g h))).getD ∅

/-- The identifier-level parent step: `b` names a direct parent of the code
named `a`. -/
def identParentRel (g : Graph) (a b : String) : Prop := b ∈ get_parents g a

/-- The identifier-level child step: `b` names a direct child of the code
named `a`. -/
def identChildRel (g : Graph) (a b : String) : Prop := b ∈ get_children g a

/-- Modelled from the spec: the Graph's structural invariants (missing
source): handles and identifiers are bijective keys (no duplicates), every
edge endpoint references a registered Code, and the parent/child adjacency
is a mutually consistent dual index. -/
def WF (g : Graph) : Prop :=
  (handlesList g).Nodup ∧
  (identsList g).Nodup ∧
  (∀ e ∈ g.entries, ∀ p ∈ e.parents, p ∈ handlesList g) ∧
  (∀ e ∈ g.entries, ∀ c ∈ e.children, c ∈ handlesList g) ∧
  (∀ e ∈ g.entries, ∀ p ∈ e.parents, e.handle ∈ children_of g p) ∧
  (∀ e ∈ g.entries, ∀ c ∈ e.children, e.handle ∈ parents_of g c)

instance decidableWF (g : Graph) : Decidable (WF g) := by
  unfold WF
  exact inferInstance

/-- The dual-index consistency property of the spec, over every pair of
handles: `p` is a direct parent of `c` exactly when `c` is a direct child
of `p`. -/
def DualIndex (g : Graph) : Prop :=
  ∀ c p : Nat, p ∈ parents_of g c ↔ c ∈ children_of g p

/-- The empty Graph, before any construction. -/
def emptyGraph : Graph := ⟨[]⟩

/-- A handle strictly larger than every registered one (dense allocation at
load time, and in any case fresh). -/
def freshHandle (g : Graph) : Nat := (handlesList g).foldr (fun h m => max (h + 1) m) 0

/-- Modelled from the spec: `register(identifier, description?) -> handle`
of the Code Registry (missing source): returns the existing handle if the
identifier is already registered (idempotent), else allocates the next
handle and stores the mapping in both directions. -/
def register (g : Graph) (id : String) (d : Option String) : Graph × Nat :=
  match entryOfIdent g id with
  | some e => (g, e.handle)
  | none => (⟨g.entries ++ [⟨freshHandle g, id, d, [], []⟩]⟩, freshHandle g)

/-- Modelled from the spec: `merge_metadata(identifier, description)` of
the Code Registry (missing source): overlays a description onto an
existing code (last-write-wins, the choice the spec leaves to the
implementer), or registers a metadata-only code. -/
def merge_metadata (g : Graph) (id : String) (d : String) : Graph :=
  match entryOfIdent g id with
  | some _ => ⟨g.entries.map (fun e => if e.ident == id then { e with descr := some d } else e)⟩
  | none => (register g id (some d)).1

/-- Modelled from the spec: the error taxonomy of malformed edge
construction (missing source). -/
inductive EdgeError where
  | InvalidHandle
  | SelfLoop
deriving DecidableEq

instance exceptDecidableEq {ε α : Type} [DecidableEq ε] [DecidableEq α] :
    DecidableEq (Except ε α) := fun a b =>
  match a, b with
  | .error e, .error f =>
    if h : e = f then isTrue (by rw [h])
    else isFalse (by intro hh; injection hh; exact h (by assumption))
  | .ok x, .ok y =>
    if h : x = y then isTrue (by rw [h])
    else isFalse (by intro hh; injection hh; exact h (by assumption))
  | .error _, .ok _ => isFalse (by intro hh; exact Except.noConfusion hh)
  | .ok _, .error _ => isFalse (by intro hh; exact Except.noConfusion hh)

/-- Record `c` in the child index of the parent endpoint's entry (skipped
when already present). -/
def addEdgeChild (p c : Nat) (e : CodeEntry) : CodeEntry :=
  if e.handle = p ∧ c ∉ e.children then { e with children := c :: e.children } else e

/-- Record `p` in the parent index of the child endpoint's entry (skipped
when already present). -/
def addEdgeParent (p c : Nat) (e : CodeEntry) : CodeEntry :=
  if e.handle = c ∧ p ∉ e.parents then { e with parents := p :: e.parents } else e

/-- The per-entry rewrite of one `add_edge` call: both halves of the dual
index are updated. -/
def addEdgeEntry (p c : Nat) (e : CodeEntry) : CodeEntry :=
  addEdgeParent p c (addEdgeChild p c e)

/-- Modelled from the spec: `add_edge(parent_handle, child_handle)` of the
Edge Store (missing source): fails with `InvalidHandle` if either endpoint
is unregistered (the spec lists this check first), fails with `SelfLoop`
if parent equals child, and otherwise records the edge in both adjacency
indices, idempotently. -/
def add_edge (g : Graph) (p c : Nat) : Except EdgeError Graph :=
  if (entryOf g p).isNone ∨ (entryOf g c).isNone then .error .InvalidHandle
  else if p = c then .error .SelfLoop
  else .ok ⟨g.entries.map (addEdgeEntry p c)⟩

/-- The handles of the used identifiers that are known to the Registry
(unknown ones silently dropped, as the spec requires). -/
def usedHandles (g : Graph) (used : List String) : Finset Nat :=
  (used.filterMap (handle_of g)).toFinset

/-- Modelled from the spec: the retained node set of the Pruner (missing
source): the known used codes united with all their ancestors. -/
def retainSet (g : Graph) (used : List String) : Finset Nat :=
  usedHandles g used ∪ (usedHandles g used).biUnion (fun h => all_ancestors g h)

/-- Restrict one entry's adjacency rows to a set of handles (identifier
and description untouched). -/
def pruneMap (keep : Finset Nat) (e : CodeEntry) : CodeEntry :=
  { e with
    parents := e.parents.filter (fun p => decide (p ∈ keep)),
    children := e.children.filter (fun c => decide (c ∈ keep)) }

/-- Restrict a Graph to a set of handles: keep exactly the Codes whose
handle is in the set (identifiers and descriptions untouched) and exactly
the Edges whose both endpoints are in the set. -/
def pruneHandles (g : Graph) (keep : Finset Nat) : Graph :=
  ⟨(g.entries.filter (fun e => decide (e.handle ∈ keep))).map (pruneMap keep)⟩

/-- Modelled from the spec: `prune(used_identifiers) -> Graph` of the
Pruner (missing source, publicly reached through `prune_to_dataset`):
keep exactly the used codes known to the Registry together with all their
ancestors, and exactly the edges between retained codes. -/
def prune (g : Graph) (used : List String) : Graph :=
  pruneHandles g (retainSet g used)

/-- Modelled from the spec: one serialized record of the Persistence Layer
(missing source): a Code's identifier, description and both adjacency rows
written through the stable identifier key (the exact binary layout is an
implementation choice the spec leaves open). -/
structure VocabRecord where
  ident : String
  descr : Option String
  parentIdents : List String
  childIdents : List String
deriving DecidableEq

/-- One entry written out through the stable identifier key. -/
def sRec (g : Graph) (e : CodeEntry) : VocabRecord :=
  ⟨e.ident, e.descr, e.parents.filterMap (identifier_of g),
    e.children.filterMap (identifier_of g)⟩

/-- Modelled from the spec: `serialize(graph)` of the Persistence Layer
(missing source): a deterministic encoding of the full Registry and Edge
Store, sufficient to reconstruct an equivalent Graph. -/
def serialize (g : Graph) : List VocabRecord :=
  g.entries.map (sRec g)

/-- First index of an element in a list, if present. -/
def idxOf? {α : Type} [DecidableEq α] : List α → α → Option Nat
  | [], _ => none
  | x :: xs, y => if x = y then some 0 else (idxOf? xs y).map (fun i => i + 1)

/-- One rebuilt arena entry: a record placed at a fresh dense handle, its
identifier references resolved to the new handles. -/
def bCon (ids : List String) (h : Nat) (r : VocabRecord) : CodeEntry :=
  ⟨h, r.ident, r.descr, r.parentIdents.filterMap (idxOf? ids),
    r.childIdents.filterMap (idxOf? ids)⟩

/-- Rebuild the arena entries from serialized records, assigning dense
handles in record order. -/
def buildEntries (ids : List String) : Nat → List VocabRecord → List CodeEntry
  | _, [] => []
  | i, r :: rest => bCon ids i r :: buildEntries ids (i + 1) rest

/-- The candidate Graph read back from serialized records (handles are
renumbered densely; identifiers are the stable key). -/
def buildFrom (rs : List VocabRecord) : Graph :=
  ⟨buildEntries (rs.map (fun r => r.ident)) 0 rs⟩

/-- Modelled from the spec: `deserialize(bytes) -> Graph` of the
Persistence Layer (missing source): reconstructs the Graph and fails (with
`CorruptData`, here `none`) if the structural invariants are violated on
load. -/
def deserialize (rs : List VocabRecord) : Option Graph :=
  let g := buildFrom rs
  if WF g then some g else none

/-- The concrete scenario graph of the spec: edges `A→B`, `A→C`, `B→D`,
`C→D` (D has two parents). -/
def exG : Graph :=
  ⟨[⟨0, "A", none, [], [1, 2]⟩,
    ⟨1, "B", none, [0], [3]⟩,
    ⟨2, "C", none, [0], [3]⟩,
    ⟨3, "D", none, [1, 2], []⟩]⟩

/-- The diamond graph of the claims: `C` has parents `A` and `B`, and both
`A` and `B` have parent `Root`. -/
def diamondG : Graph :=
  ⟨[⟨0, "Root", none, [], [1, 2]⟩,
    ⟨1, "A", none, [0], [3]⟩,
    ⟨2, "B", none, [0], [3]⟩,
    ⟨3, "C", none, [1, 2], []⟩]⟩

/-- A graph whose three codes form a cycle `X0 → X1 → X2 → X0` (a tolerated
data defect: the closure algorithms must still terminate on it). -/
def cycleG : Graph :=
  ⟨[⟨0, "X0", none, [2], [1]⟩,
    ⟨1, "X1", none, [0], [2]⟩,
    ⟨2, "X2", none, [1], [0]⟩]⟩

/-! ### Generic list lemmas -/

theorem idxOf?_lt_length {α : Type} [DecidableEq α] :
    ∀ {l : List α} {y : α} {i : Nat}, idxOf? l y = some i → i < l.length := by
  intro l
  induction l with
  | nil => intro y i h; simp [idxOf?] at h
  | cons x xs ih =>
    intro y i h
    by_cases hxy : x = y
    · simp [idxOf?, hxy] at h
      simp only [List.length_cons]
      omega
    · simp only [idxOf?, if_neg hxy, Option.map_eq_some'] at h
      obtain ⟨j, hj, rfl⟩ := h
      have := ih hj
      simp only [List.length_cons]
      omega

theorem idxOf?_getElem {α : Type} [DecidableEq α] :
    ∀ {l : List α} {y : α} {i : Nat} (h : idxOf? l y = some i),
      l.get ⟨i, (idxOf?_lt_length h)⟩ = y := by
  intro l
  induction l with
  | nil => intro y i h; simp [idxOf?] at h
  | cons x xs ih =>
    intro y i h
    by_cases hxy : x = y
    · simp [idxOf?, hxy] at h
      subst h
      simpa using hxy
    · simp only [idxOf?, if_neg hxy, Option.map_eq_some'] at h
      obtain ⟨j, hj, rfl⟩ := h
      simpa using ih hj

theorem idxOf?_eq_none_iff {α : Type} [DecidableEq α] :
    ∀ {l : List α} {y : α}, idxOf? l y = none ↔ y ∉ l := by
  intro l
  induction l with
  | nil => intro y; simp [idxOf?]
  | cons x xs ih =>
    intro y
    by_cases hxy : x = y
    · simp [idxOf?, hxy]
    · simp [idxOf?, hxy, ih, Ne.symm hxy]

theorem idxOf?_isSome_of_mem {α : Type} [DecidableEq α] {l : List α} {y : α}
    (h : y ∈ l) : ∃ i, idxOf? l y = some i := by
  cases hi : idxOf? l y with
  | none => exact absurd h (idxOf?_eq_none_iff.mp hi)
  | some i => exact ⟨i, rfl⟩

theorem idxOf?_getElem_self {α : Type} [DecidableEq α] :
    ∀ {l : List α}, l.Nodup → ∀ {i : Nat} (hi : i < l.length),
      idxOf? l (l.get ⟨i, hi⟩) = some i := by
  intro l
  induction l with
  | nil => intro _ i hi; simp at hi
  | cons x xs ih =>
    intro hnd i hi
    rw [List.nodup_cons] at hnd
    cases i with
    | zero => simp [idxOf?]
    | succ j =>
      have hj : j < xs.length := by simpa using hi
      have hne : x ≠ xs.get ⟨j, hj⟩ := by
        intro hx
        exact hnd.1 (hx ▸ List.get_mem xs j hj)
      show (if x = xs.get ⟨j, hj⟩ then some 0
        else (idxOf? xs (xs.get ⟨j, hj⟩)).map (fun i => i + 1)) = some (j + 1)
      rw [if_neg hne, ih hnd.2 hj]
      rfl

/-- A key-unique lookup finds exactly the member with that key. -/
theorem find?_key_self {α β : Type} [DecidableEq β] (key : α → β) [BEq β] [LawfulBEq β] :
    ∀ {l : List α}, (l.map key).Nodup → ∀ {e : α}, e ∈ l →
      l.find? (fun x => key x == key e) = some e := by
  intro l
  induction l with
  | nil => intro _ e he; simp at he
  | cons a as ih =>
    intro hnd e he
    rw [List.map_cons, List.nodup_cons] at hnd
    rcases List.mem_cons.mp he with rfl | hmem
    · simp
    · have hne : (key a == key e) = false := by
        simp only [beq_eq_false_iff_ne, ne_eq]
        intro hk
        exact hnd.1 (hk ▸ List.mem_map_of_mem key hmem)
      rw [List.find?_cons_of_neg _ (by simp [hne])]
      exact ih hnd.2 hmem

/-- Looking a key up in a filtered list: with unique keys, it is the lookup
in the full list gated by the filter predicate. -/
theorem find?_filter_of_nodupkey {α β : Type} [DecidableEq β] [BEq β] [LawfulBEq β]
    (key : α → β) (q : α → Bool) :
    ∀ {l : List α}, (l.map key).Nodup → ∀ (k : β),
      (l.filter q).find? (fun e => key e == k) =
        (l.find? (fun e => key e == k)).bind (fun e => if q e then some e else none) := by
  intro l
  induction l with
  | nil => intro _ k; rfl
  | cons a as ih =>
    intro hnd k
    rw [List.map_cons, List.nodup_cons] at hnd
    by_cases hak : key a = k
    · subst hak
      cases hqa : q a with
      | true =>
        rw [List.filter_cons_of_pos hqa, List.find?_cons_of_pos _ (by simp),
          List.find?_cons_of_pos _ (by simp)]
        simp [hqa]
      | false =>
        rw [List.filter_cons_of_neg (by simp [hqa]), List.find?_cons_of_pos _ (by simp)]
        have : (as.filter q).find? (fun e => key e == key a) = none := by
          rw [List.find?_eq_none]
          intro x hx
          have hxas : x ∈ as := (List.mem_filter.mp hx).1
          simp only [beq_iff_eq]
          intro hk
          exact hnd.1 (hk ▸ List.mem_map_of_mem key hxas)
        simp [this, hqa]
    · have hne : (key a == k) = false := by simp [hak]
      cases hqa : q a with
      | true =>
        rw [List.filter_cons_of_pos hqa, List.find?_cons_of_neg _ (by simp [hak]),
          List.find?_cons_of_neg _ (by simp [hak])]
        exact ih hnd.2 k
      | false =>
        rw [List.filter_cons_of_neg (by simp [hqa]), List.find?_cons_of_neg _ (by simp [hak])]
        exact ih hnd.2 k

/-- Looking a key up through a key-preserving map. -/
theorem find?_map_keyinv {α β : Type} [DecidableEq β] [BEq β] [LawfulBEq β]
    (key : α → β) (m : α → α) (hm : ∀ e, key (m e) = key e) (l : List α) (k : β) :
    (l.map m).find? (fun e => key e == k) = (l.find? (fun e => key e == k)).map m := by
  rw [List.find?_map]
  have hp : ((fun e => key e == k) ∘ m) = fun e => key e == k := by
    funext e
    simp [hm e]
  rw [hp]

theorem freshHandle_gt : ∀ {g : Graph} {h : Nat}, h ∈ handlesList g → h < freshHandle g := by
  intro g
  unfold freshHandle
  generalize handlesList g = l
  induction l with
  | nil => intro h hh; simp at hh
  | cons a as ih =>
    intro h hh
    rcases List.mem_cons.mp hh with rfl | hmem
    · simp only [List.foldr_cons]
      omega
    · have := ih hmem
      simp only [List.foldr_cons]
      omega


theorem exists_get_of_mem {α : Type} {l : List α} {a : α} (h : a ∈ l) :
    ∃ j, ∃ hj : j < l.length, l.get ⟨j, hj⟩ = a := by
  obtain ⟨n, hn⟩ := List.mem_iff_get.mp h
  exact ⟨n.1, n.2, hn⟩

/-! ### Closure engine: saturation reaches exactly the reachable set -/

theorem subset_closureStep (adj : Nat → List Nat) (s : Finset Nat) :
    s ⊆ closureStep adj s :=
  Finset.subset_union_left

theorem closureIter_succ (adj : Nat → List Nat) (n : Nat) (s : Finset Nat) :
    closureIter adj (n + 1) s = closureStep adj (closureIter adj n s) :=
  Function.iterate_succ_apply' (closureStep adj) n s

theorem subset_closureIter (adj : Nat → List Nat) (n : Nat) (s : Finset Nat) :
    s ⊆ closureIter adj n s := by
  induction n with
  | zero => exact fun x hx => hx
  | succ m ih =>
    rw [closureIter_succ]
    exact ih.trans (subset_closureStep adj _)

theorem closureIter_mono (adj : Nat → List Nat) (n : Nat) (s : Finset Nat) :
    closureIter adj n s ⊆ closureIter adj (n + 1) s := by
  rw [closureIter_succ]
  exact subset_closureStep adj _

theorem closureIter_subset_bound (adj : Nat → List Nat) (HF : Finset Nat)
    (hadj : ∀ a b, b ∈ adj a → b ∈ HF) (s : Finset Nat) (n : Nat) :
    closureIter adj n s ⊆ s ∪ HF := by
  induction n with
  | zero => exact Finset.subset_union_left
  | succ m ih =>
    rw [closureIter_succ]
    intro x hx
    rcases Finset.mem_union.mp hx with hx | hx
    · exact ih hx
    · obtain ⟨y, _, hxy⟩ := Finset.mem_biUnion.mp hx
      exact Finset.mem_union_right _ (hadj y x (List.mem_toFinset.mp hxy))

theorem closureIter_card_growth (adj : Nat → List Nat) (s : Finset Nat) :
    ∀ m : Nat, (∀ k < m, closureIter adj (k + 1) s ≠ closureIter adj k s) →
      s.card + m ≤ (closureIter adj m s).card := by
  intro m
  induction m with
  | zero => intro _; simp [closureIter]
  | succ p ih =>
    intro hne
    have h1 : s.card + p ≤ (closureIter adj p s).card :=
      ih (fun k hk => hne k (by omega))
    have h2 : closureIter adj p s ⊂ closureIter adj (p + 1) s :=
      HasSubset.Subset.ssubset_of_ne (closureIter_mono adj p s)
        (Ne.symm (hne p (by omega)))
    have := Finset.card_lt_card h2
    omega

theorem closureIter_exists_fix (adj : Nat → List Nat) (HF : Finset Nat)
    (hadj : ∀ a b, b ∈ adj a → b ∈ HF) (s : Finset Nat) (N : Nat)
    (hN : (s ∪ HF).card ≤ N) :
    ∃ k ≤ N, closureIter adj (k + 1) s = closureIter adj k s := by
  by_contra hno
  push_neg at hno
  have hgrow := closureIter_card_growth adj s (N + 1) (fun k hk => hno k (by omega))
  have hsub := closureIter_subset_bound adj HF hadj s (N + 1)
  have := Finset.card_le_card hsub
  omega

theorem closureIter_fix_stable (adj : Nat → List Nat) (s : Finset Nat) (k : Nat)
    (hfix : closureIter adj (k + 1) s = closureIter adj k s) :
    ∀ m, k ≤ m → closureIter adj m s = closureIter adj k s := by
  intro m
  induction m with
  | zero => intro h; rw [Nat.le_zero.mp h]
  | succ p ih =>
    intro h
    rcases Nat.lt_or_ge k (p + 1) with hlt | hge
    · have hkp : k ≤ p := by omega
      rw [closureIter_succ, ih hkp, ← closureIter_succ, hfix]
    · have hk : k = p + 1 := by omega
      rw [hk]

theorem closureStep_fix_at (adj : Nat → List Nat) (HF : Finset Nat)
    (hadj : ∀ a b, b ∈ adj a → b ∈ HF) (s : Finset Nat) (N : Nat)
    (hN : (s ∪ HF).card ≤ N) :
    closureStep adj (closureIter adj N s) = closureIter adj N s := by
  obtain ⟨k, hkN, hfix⟩ := closureIter_exists_fix adj HF hadj s N hN
  have hNfix := closureIter_fix_stable adj s k hfix N hkN
  have hN1 := closureIter_fix_stable adj s k hfix (N + 1) (by omega)
  rw [← closureIter_succ, hN1, hNfix]

theorem mem_closureIter_sound (adj : Nat → List Nat) (s : Finset Nat) :
    ∀ (n : Nat) (x : Nat), x ∈ closureIter adj n s →
      ∃ a ∈ s, Relation.ReflTransGen (stepRel adj) a x := by
  intro n
  induction n with
  | zero => intro x hx; exact ⟨x, hx, Relation.ReflTransGen.refl⟩
  | succ m ih =>
    intro x hx
    rw [closureIter_succ] at hx
    rcases Finset.mem_union.mp hx with hx | hx
    · exact ih x hx
    · obtain ⟨y, hy, hxy⟩ := Finset.mem_biUnion.mp hx
      obtain ⟨a, ha, hreach⟩ := ih y hy
      exact ⟨a, ha, hreach.tail (List.mem_toFinset.mp hxy)⟩

theorem mem_closureIter_complete (adj : Nat → List Nat) (t : Finset Nat)
    (hfix : closureStep adj t = t) {a x : Nat} (ha : a ∈ t)
    (hreach : Relation.ReflTransGen (stepRel adj) a x) : x ∈ t := by
  induction hreach with
  | refl => exact ha
  | tail _ hstep ih =>
    rw [← hfix]
    refine Finset.mem_union_right _ (Finset.mem_biUnion.mpr ⟨_, ih, ?_⟩)
    exact List.mem_toFinset.mpr hstep

theorem mem_closureIter_iff (adj : Nat → List Nat) (HF : Finset Nat)
    (hadj : ∀ a b, b ∈ adj a → b ∈ HF) (h : Nat) (N : Nat)
    (hN : ({h} ∪ HF : Finset Nat).card ≤ N) (x : Nat) :
    x ∈ closureIter adj N {h} ↔ Relation.ReflTransGen (stepRel adj) h x := by
  constructor
  · intro hx
    obtain ⟨a, ha, hreach⟩ := mem_closureIter_sound adj {h} N x hx
    rw [Finset.mem_singleton.mp ha] at hreach
    exact hreach
  · intro hreach
    exact mem_closureIter_complete adj _ (closureStep_fix_at adj HF hadj {h} N hN)
      (subset_closureIter adj N {h} (Finset.mem_singleton_self h)) hreach

/-! ### Well-formed graphs: lookup and dual-index lemmas -/

theorem entryOf_spec {g : Graph} {h : Nat} {e : CodeEntry} (he : entryOf g h = some e) :
    e ∈ g.entries ∧ e.handle = h := by
  refine ⟨List.mem_of_find?_eq_some he, ?_⟩
  have := List.find?_some he
  simpa using this

theorem entryOfIdent_spec {g : Graph} {id : String} {e : CodeEntry}
    (he : entryOfIdent g id = some e) : e ∈ g.entries ∧ e.ident = id := by
  refine ⟨List.mem_of_find?_eq_some he, ?_⟩
  have := List.find?_some he
  simpa using this

theorem entryOf_self {g : Graph} (hnd : (handlesList g).Nodup) {e : CodeEntry}
    (he : e ∈ g.entries) : entryOf g e.handle = some e := by
  have hnd' : (g.entries.map (fun x => x.handle)).Nodup := hnd
  exact find?_key_self (fun x => x.handle) hnd' he

theorem entryOfIdent_self {g : Graph} (hnd : (identsList g).Nodup) {e : CodeEntry}
    (he : e ∈ g.entries) : entryOfIdent g e.ident = some e := by
  have hnd' : (g.entries.map (fun x => x.ident)).Nodup := hnd
  exact find?_key_self (fun x => x.ident) hnd' he

theorem mem_handlesList {g : Graph} {h : Nat} :
    h ∈ handlesList g ↔ ∃ e ∈ g.entries, e.handle = h := by
  simp [handlesList]

theorem mem_identsList {g : Graph} {id : String} :
    id ∈ identsList g ↔ ∃ e ∈ g.entries, e.ident = id := by
  simp [identsList]

theorem entryOf_isSome_iff {g : Graph} {h : Nat} :
    (entryOf g h).isSome = true ↔ h ∈ handlesList g := by
  rw [mem_handlesList]
  unfold entryOf
  rw [List.find?_isSome]
  constructor
  · rintro ⟨e, he, hh⟩
    exact ⟨e, he, by simpa using hh⟩
  · rintro ⟨e, he, hh⟩
    exact ⟨e, he, by simpa using hh⟩

theorem entryOfIdent_isSome_iff {g : Graph} {id : String} :
    (entryOfIdent g id).isSome = true ↔ id ∈ identsList g := by
  rw [mem_identsList]
  unfold entryOfIdent
  rw [List.find?_isSome]
  constructor
  · rintro ⟨e, he, hh⟩
    exact ⟨e, he, by simpa using hh⟩
  · rintro ⟨e, he, hh⟩
    exact ⟨e, he, by simpa using hh⟩

theorem mem_parents_of {g : Graph} {h p : Nat} :
    p ∈ parents_of g h ↔ ∃ e, entryOf g h = some e ∧ p ∈ e.parents := by
  unfold parents_of
  cases he : entryOf g h with
  | none => simp
  | some e => simp

theorem mem_children_of {g : Graph} {h c : Nat} :
    c ∈ children_of g h ↔ ∃ e, entryOf g h = some e ∧ c ∈ e.children := by
  unfold children_of
  cases he : entryOf g h with
  | none => simp
  | some e => simp

theorem parents_of_mem_handles {g : Graph} (hg : WF g) {a b : Nat}
    (hb : b ∈ parents_of g a) : b ∈ handlesList g := by
  obtain ⟨e, he, hbe⟩ := mem_parents_of.mp hb
  exact hg.2.2.1 e (entryOf_spec he).1 b hbe

theorem children_of_mem_handles {g : Graph} (hg : WF g) {a b : Nat}
    (hb : b ∈ children_of g a) : b ∈ handlesList g := by
  obtain ⟨e, he, hbe⟩ := mem_children_of.mp hb
  exact hg.2.2.2.1 e (entryOf_spec he).1 b hbe

theorem handles_card_bound (g : Graph) (h : Nat) :
    ({h} ∪ (handlesList g).toFinset : Finset Nat).card ≤ numCodes g + 1 := by
  have h1 := Finset.card_union_le ({h} : Finset Nat) (handlesList g).toFinset
  have h2 := List.toFinset_card_le (handlesList g)
  have h3 : (handlesList g).length = numCodes g := by simp [handlesList, numCodes]
  simp only [Finset.card_singleton] at h1
  omega

/-- The Closure Engine's ancestor query returns exactly the handles
reachable over `parents_of`, the start excluded. -/
theorem mem_all_ancestors {g : Graph} (hg : WF g) {h x : Nat} :
    x ∈ all_ancestors g h ↔ x ≠ h ∧ Relation.ReflTransGen (parentRel g) h x := by
  unfold all_ancestors
  rw [Finset.mem_sdiff, Finset.mem_singleton]
  have hiff := mem_closureIter_iff (parents_of g) (handlesList g).toFinset
    (fun a b hb => List.mem_toFinset.mpr (parents_of_mem_handles hg hb)) h
    (numCodes g + 1) (handles_card_bound g h) x
  rw [hiff]
  have hrel : stepRel (parents_of g) = parentRel g := rfl
  rw [hrel]
  tauto

theorem mem_all_descendants {g : Graph} (hg : WF g) {h x : Nat} :
    x ∈ all_descendants g h ↔ x ≠ h ∧ Relation.ReflTransGen (childRel g) h x := by
  unfold all_descendants
  rw [Finset.mem_sdiff, Finset.mem_singleton]
  have hiff := mem_closureIter_iff (children_of g) (handlesList g).toFinset
    (fun a b hb => List.mem_toFinset.mpr (children_of_mem_handles hg hb)) h
    (numCodes g + 1) (handles_card_bound g h) x
  rw [hiff]
  have hrel : stepRel (children_of g) = childRel g := rfl
  rw [hrel]
  tauto

/-- A well-formed graph's adjacency is a consistent dual index. -/
theorem wf_dual {g : Graph} (hg : WF g) : DualIndex g := by
  intro c p
  constructor
  · intro hp
    obtain ⟨e, he, hpe⟩ := mem_parents_of.mp hp
    obtain ⟨hmem, hh⟩ := entryOf_spec he
    exact hh ▸ hg.2.2.2.2.1 e hmem p hpe
  · intro hc
    obtain ⟨e, he, hce⟩ := mem_children_of.mp hc
    obtain ⟨hmem, hh⟩ := entryOf_spec he
    exact hh ▸ hg.2.2.2.2.2 e hmem c hce

theorem handle_of_iff_identifier_of {g : Graph} (hg : WF g) {id : String} {h : Nat} :
    handle_of g id = some h ↔ identifier_of g h = some id := by
  constructor
  · intro hid
    unfold handle_of at hid
    cases he : entryOfIdent g id with
    | none => rw [he] at hid; simp at hid
    | some e =>
      rw [he] at hid
      obtain ⟨hmem, hident⟩ := entryOfIdent_spec he
      have hh : e.handle = h := by simpa using hid
      unfold identifier_of
      rw [← hh, entryOf_self hg.1 hmem]
      simp [hident]
  · intro hh
    unfold identifier_of at hh
    cases he : entryOf g h with
    | none => rw [he] at hh; simp at hh
    | some e =>
      rw [he] at hh
      obtain ⟨hmem, hhandle⟩ := entryOf_spec he
      have hid : e.ident = id := by simpa using hh
      unfold handle_of
      rw [← hid, entryOfIdent_self hg.2.1 hmem]
      simp [hhandle]

theorem identifier_of_isSome {g : Graph} {h : Nat} (hh : h ∈ handlesList g) :
    ∃ id, identifier_of g h = some id := by
  obtain ⟨e, hmem, hhandle⟩ := mem_handlesList.mp hh
  cases he : entryOf g h with
  | none =>
    unfold entryOf at he
    rw [List.find?_eq_none] at he
    exact absurd (by simp [hhandle] : (e.handle == h) = true) (by simpa using he e hmem)
  | some e' => exact ⟨e'.ident, by simp [identifier_of, he]⟩

/-- Handles reachable over the adjacency stay registered (or are the
start). -/
theorem reach_registered {g : Graph} (hg : WF g) {a b : Nat}
    (h : Relation.ReflTransGen (parentRel g) a b) : b = a ∨ b ∈ handlesList g := by
  induction h with
  | refl => exact Or.inl rfl
  | tail _ hstep _ => exact Or.inr (parents_of_mem_handles hg hstep)

/-! ### Pruner lemmas -/

theorem pruneMap_handle (keep : Finset Nat) (e : CodeEntry) :
    (pruneMap keep e).handle = e.handle := rfl

theorem pruneMap_ident (keep : Finset Nat) (e : CodeEntry) :
    (pruneMap keep e).ident = e.ident := rfl

theorem entryOf_pruneHandles {g : Graph} (hnd : (handlesList g).Nodup)
    (keep : Finset Nat) (h : Nat) :
    entryOf (pruneHandles g keep) h =
      (entryOf g h).bind
        (fun e => if e.handle ∈ keep then some (pruneMap keep e) else none) := by
  have h1 : entryOf (pruneHandles g keep) h =
      ((g.entries.filter (fun e => decide (e.handle ∈ keep))).find?
        (fun e => e.handle == h)).map (pruneMap keep) :=
    find?_map_keyinv (fun x : CodeEntry => x.handle) (pruneMap keep)
      (pruneMap_handle keep) (g.entries.filter (fun e => decide (e.handle ∈ keep))) h
  have hnd' : (g.entries.map (fun x => x.handle)).Nodup := hnd
  have h2 : (g.entries.filter (fun e => decide (e.handle ∈ keep))).find?
        (fun e => e.handle == h) =
      (g.entries.find? (fun e => e.handle == h)).bind
        (fun e => if decide (e.handle ∈ keep) = true then some e else none) :=
    find?_filter_of_nodupkey (fun x : CodeEntry => x.handle)
      (fun e => decide (e.handle ∈ keep)) hnd' h
  rw [h1, h2]
  show ((entryOf g h).bind _).map _ = _
  cases entryOf g h with
  | none => rfl
  | some e =>
    by_cases hk : e.handle ∈ keep
    · simp [hk]
    · simp [hk]

theorem entryOfIdent_pruneHandles {g : Graph} (hnd : (identsList g).Nodup)
    (keep : Finset Nat) (id : String) :
    entryOfIdent (pruneHandles g keep) id =
      (entryOfIdent g id).bind
        (fun e => if e.handle ∈ keep then some (pruneMap keep e) else none) := by
  have h1 : entryOfIdent (pruneHandles g keep) id =
      ((g.entries.filter (fun e => decide (e.handle ∈ keep))).find?
        (fun e => e.ident == id)).map (pruneMap keep) :=
    find?_map_keyinv (fun x : CodeEntry => x.ident) (pruneMap keep)
      (pruneMap_ident keep) (g.entries.filter (fun e => decide (e.handle ∈ keep))) id
  have hnd' : (g.entries.map (fun x => x.ident)).Nodup := hnd
  have h2 : (g.entries.filter (fun e => decide (e.handle ∈ keep))).find?
        (fun e => e.ident == id) =
      (g.entries.find? (fun e => e.ident == id)).bind
        (fun e => if decide (e.handle ∈ keep) = true then some e else none) :=
    find?_filter_of_nodupkey (fun x : CodeEntry => x.ident)
      (fun e => decide (e.handle ∈ keep)) hnd' id
  rw [h1, h2]
  show ((entryOfIdent g id).bind _).map _ = _
  cases entryOfIdent g id with
  | none => rfl
  | some e =>
    by_cases hk : e.handle ∈ keep
    · simp [hk]
    · simp [hk]

theorem mem_parents_of_pruneHandles {g : Graph} (hnd : (handlesList g).Nodup)
    {keep : Finset Nat} {c p : Nat} :
    p ∈ parents_of (pruneHandles g keep) c ↔
      p ∈ parents_of g c ∧ p ∈ keep ∧ c ∈ keep := by
  rw [mem_parents_of, mem_parents_of]
  constructor
  · rintro ⟨e', he', hpe'⟩
    rw [entryOf_pruneHandles hnd keep c] at he'
    cases he : entryOf g c with
    | none => rw [he] at he'; simp at he'
    | some e =>
      rw [he] at he'
      by_cases hk : e.handle ∈ keep
      · simp only [Option.some_bind, if_pos hk] at he'
        have he'' : e' = pruneMap keep e := by simpa using he'.symm
        subst he''
        have hck : c ∈ keep := (entryOf_spec he).2 ▸ hk
        unfold pruneMap at hpe'
        simp only [List.mem_filter, decide_eq_true_eq] at hpe'
        exact ⟨⟨e, rfl, hpe'.1⟩, hpe'.2, hck⟩
      · rw [Option.some_bind, if_neg hk] at he'
        exact absurd he' (by simp)
  · rintro ⟨⟨e, he, hpe⟩, hpk, hck⟩
    refine ⟨pruneMap keep e, ?_, ?_⟩
    · rw [entryOf_pruneHandles hnd keep c, he, Option.some_bind,
        if_pos ((entryOf_spec he).2.symm ▸ hck)]
    · unfold pruneMap
      simp only [List.mem_filter, decide_eq_true_eq]
      exact ⟨hpe, hpk⟩

theorem mem_children_of_pruneHandles {g : Graph} (hnd : (handlesList g).Nodup)
    {keep : Finset Nat} {h c : Nat} :
    c ∈ children_of (pruneHandles g keep) h ↔
      c ∈ children_of g h ∧ c ∈ keep ∧ h ∈ keep := by
  rw [mem_children_of, mem_children_of]
  constructor
  · rintro ⟨e', he', hce'⟩
    rw [entryOf_pruneHandles hnd keep h] at he'
    cases he : entryOf g h with
    | none => rw [he] at he'; simp at he'
    | some e =>
      rw [he] at he'
      by_cases hk : e.handle ∈ keep
      · simp only [Option.some_bind, if_pos hk] at he'
        have he'' : e' = pruneMap keep e := by simpa using he'.symm
        subst he''
        have hhk : h ∈ keep := (entryOf_spec he).2 ▸ hk
        unfold pruneMap at hce'
        simp only [List.mem_filter, decide_eq_true_eq] at hce'
        exact ⟨⟨e, rfl, hce'.1⟩, hce'.2, hhk⟩
      · rw [Option.some_bind, if_neg hk] at he'
        exact absurd he' (by simp)
  · rintro ⟨⟨e, he, hce⟩, hck, hhk⟩
    refine ⟨pruneMap keep e, ?_, ?_⟩
    · rw [entryOf_pruneHandles hnd keep h, he, Option.some_bind,
        if_pos ((entryOf_spec he).2.symm ▸ hhk)]
    · unfold pruneMap
      simp only [List.mem_filter, decide_eq_true_eq]
      exact ⟨hce, hck⟩

theorem handle_of_pruneHandles {g : Graph} (hnd : (identsList g).Nodup)
    (keep : Finset Nat) (id : String) :
    handle_of (pruneHandles g keep) id =
      (handle_of g id).bind (fun h => if h ∈ keep then some h else none) := by
  unfold handle_of
  rw [entryOfIdent_pruneHandles hnd keep id]
  cases entryOfIdent g id with
  | none => rfl
  | some e =>
    by_cases hk : e.handle ∈ keep
    · simp [hk, pruneMap_handle]
    · simp [hk]

theorem handlesList_pruneHandles (g : Graph) (keep : Finset Nat) :
    handlesList (pruneHandles g keep) =
      (handlesList g).filter (fun h => decide (h ∈ keep)) := by
  unfold pruneHandles handlesList
  simp only [List.map_map]
  rw [List.filter_map]
  rfl

theorem identsList_pruneHandles (g : Graph) (keep : Finset Nat) :
    identsList (pruneHandles g keep) =
      (g.entries.filter (fun e => decide (e.handle ∈ keep))).map
        (fun e => e.ident) := by
  unfold pruneHandles identsList
  simp only [List.map_map]
  rfl

theorem mem_entries_pruneHandles {g : Graph} {keep : Finset Nat} {e' : CodeEntry} :
    e' ∈ (pruneHandles g keep).entries ↔
      ∃ e ∈ g.entries, e.handle ∈ keep ∧ e' = pruneMap keep e := by
  unfold pruneHandles
  simp only [List.mem_map, List.mem_filter, decide_eq_true_eq]
  constructor
  · rintro ⟨e, ⟨he, hk⟩, rfl⟩
    exact ⟨e, he, hk, rfl⟩
  · rintro ⟨e, he, hk, rfl⟩
    exact ⟨e, ⟨he, hk⟩, rfl⟩

theorem WF_pruneHandles {g : Graph} (hg : WF g) (keep : Finset Nat) :
    WF (pruneHandles g keep) := by
  refine ⟨?_, ?_, ?_, ?_, ?_, ?_⟩
  · rw [handlesList_pruneHandles]
    exact hg.1.filter _
  · rw [identsList_pruneHandles]
    have hsub : List.Sublist
        ((g.entries.filter (fun e => decide (e.handle ∈ keep))).map (fun e => e.ident))
        (g.entries.map (fun e => e.ident)) :=
      (List.filter_sublist g.entries).map _
    exact hg.2.1.sublist hsub
  · rintro e' he' p hp
    obtain ⟨e, he, hk, rfl⟩ := mem_entries_pruneHandles.mp he'
    unfold pruneMap at hp
    simp only [List.mem_filter, decide_eq_true_eq] at hp
    rw [handlesList_pruneHandles, List.mem_filter]
    exact ⟨hg.2.2.1 e he p hp.1, by simpa using hp.2⟩
  · rintro e' he' c hc
    obtain ⟨e, he, hk, rfl⟩ := mem_entries_pruneHandles.mp he'
    unfold pruneMap at hc
    simp only [List.mem_filter, decide_eq_true_eq] at hc
    rw [handlesList_pruneHandles, List.mem_filter]
    exact ⟨hg.2.2.2.1 e he c hc.1, by simpa using hc.2⟩
  · rintro e' he' p hp
    obtain ⟨e, he, hk, rfl⟩ := mem_entries_pruneHandles.mp he'
    unfold pruneMap at hp
    simp only [List.mem_filter, decide_eq_true_eq] at hp
    rw [pruneMap_handle]
    exact mem_children_of_pruneHandles hg.1 |>.mpr
      ⟨hg.2.2.2.2.1 e he p hp.1, hk, hp.2⟩
  · rintro e' he' c hc
    obtain ⟨e, he, hk, rfl⟩ := mem_entries_pruneHandles.mp he'
    unfold pruneMap at hc
    simp only [List.mem_filter, decide_eq_true_eq] at hc
    rw [pruneMap_handle]
    exact mem_parents_of_pruneHandles hg.1 |>.mpr
      ⟨hg.2.2.2.2.2 e he c hc.1, hk, hc.2⟩

/-! ### Retained set and pruned reachability -/

theorem mem_usedHandles {g : Graph} {used : List String} {x : Nat} :
    x ∈ usedHandles g used ↔ ∃ id ∈ used, handle_of g id = some x := by
  unfold usedHandles
  rw [List.mem_toFinset, List.mem_filterMap]

theorem mem_retainSet {g : Graph} {used : List String} {x : Nat} :
    x ∈ retainSet g used ↔
      ∃ b ∈ usedHandles g used, x = b ∨ x ∈ all_ancestors g b := by
  unfold retainSet
  rw [Finset.mem_union, Finset.mem_biUnion]
  constructor
  · rintro (hx | ⟨b, hb, hxb⟩)
    · exact ⟨x, hx, Or.inl rfl⟩
    · exact ⟨b, hb, Or.inr hxb⟩
  · rintro ⟨b, hb, rfl | hxb⟩
    · exact Or.inl hb
    · exact Or.inr ⟨b, hb, hxb⟩

theorem usedHandles_subset_retainSet (g : Graph) (used : List String) :
    usedHandles g used ⊆ retainSet g used :=
  Finset.subset_union_left

/-- The retained set is closed under ancestors: anything parent-reachable
from a retained handle is retained. -/
theorem retainSet_closed {g : Graph} (hg : WF g) {used : List String} {x z : Nat}
    (hx : x ∈ retainSet g used)
    (hreach : Relation.ReflTransGen (parentRel g) x z) : z ∈ retainSet g used := by
  obtain ⟨b, hb, hxb⟩ := mem_retainSet.mp hx
  have hbz : Relation.ReflTransGen (parentRel g) b z := by
    rcases hxb with rfl | hxb
    · exact hreach
    · exact ((mem_all_ancestors hg).mp hxb).2.trans hreach
  by_cases hzb : z = b
  · subst hzb
    exact usedHandles_subset_retainSet g used hb
  · exact mem_retainSet.mpr ⟨b, hb, Or.inr ((mem_all_ancestors hg).mpr ⟨hzb, hbz⟩)⟩

theorem retain_parent_closed {g : Graph} (hg : WF g) (used : List String) :
    ∀ a b, a ∈ retainSet g used → parentRel g a b → b ∈ retainSet g used :=
  fun _ _ ha hab => retainSet_closed hg ha (Relation.ReflTransGen.single hab)

theorem keep_closed_rtg {g : Graph} {keep : Finset Nat}
    (hcl : ∀ a b, a ∈ keep → parentRel g a b → b ∈ keep) {a b : Nat}
    (ha : a ∈ keep) (hr : Relation.ReflTransGen (parentRel g) a b) : b ∈ keep := by
  induction hr with
  | refl => exact ha
  | tail _ hstep ih => exact hcl _ _ ih hstep

theorem rtg_parent_pruneHandles_mp {g : Graph} (hnd : (handlesList g).Nodup)
    {keep : Finset Nat} {h x : Nat}
    (hr : Relation.ReflTransGen (parentRel (pruneHandles g keep)) h x) :
    Relation.ReflTransGen (parentRel g) h x := by
  induction hr with
  | refl => exact Relation.ReflTransGen.refl
  | tail _ hstep ih =>
    exact ih.tail ((mem_parents_of_pruneHandles hnd).mp hstep).1

theorem rtg_parent_pruneHandles_mpr {g : Graph} (hg : WF g) {keep : Finset Nat}
    (hcl : ∀ a b, a ∈ keep → parentRel g a b → b ∈ keep) {h x : Nat} (hh : h ∈ keep)
    (hr : Relation.ReflTransGen (parentRel g) h x) :
    Relation.ReflTransGen (parentRel (pruneHandles g keep)) h x := by
  induction hr with
  | refl => exact Relation.ReflTransGen.refl
  | @tail y x hab hstep ih =>
    have hy : y ∈ keep := keep_closed_rtg hcl hh hab
    have hx : x ∈ keep := hcl y x hy hstep
    exact ih.tail ((mem_parents_of_pruneHandles hg.1).mpr ⟨hstep, hx, hy⟩)

theorem rtg_child_pruneHandles_mp {g : Graph} (hnd : (handlesList g).Nodup)
    {keep : Finset Nat} {h x : Nat}
    (hr : Relation.ReflTransGen (childRel (pruneHandles g keep)) h x) :
    Relation.ReflTransGen (childRel g) h x ∧ (x = h ∨ x ∈ keep) := by
  induction hr with
  | refl => exact ⟨Relation.ReflTransGen.refl, Or.inl rfl⟩
  | tail _ hstep ih =>
    have hc := (mem_children_of_pruneHandles hnd).mp hstep
    exact ⟨ih.1.tail hc.1, Or.inr hc.2.1⟩

theorem rtg_child_pruneHandles_mpr {g : Graph} (hg : WF g) {keep : Finset Nat}
    (hcl : ∀ a b, a ∈ keep → parentRel g a b → b ∈ keep) {h x : Nat} (hh : h ∈ keep)
    (hr : Relation.ReflTransGen (childRel g) h x) (hx : x ∈ keep) :
    Relation.ReflTransGen (childRel (pruneHandles g keep)) h x := by
  induction hr with
  | refl => exact Relation.ReflTransGen.refl
  | @tail y x hab hstep ih =>
    have hy : y ∈ keep := by
      have hyx : parentRel g x y := (wf_dual hg x y).mpr hstep
      exact hcl x y hx hyx
    exact (ih hy).tail ((mem_children_of_pruneHandles hg.1).mpr ⟨hstep, hx, hy⟩)

theorem all_ancestors_pruneHandles {g : Graph} (hg : WF g) {keep : Finset Nat}
    (hcl : ∀ a b, a ∈ keep → parentRel g a b → b ∈ keep) {h : Nat} (hh : h ∈ keep) :
    all_ancestors (pruneHandles g keep) h = all_ancestors g h := by
  ext x
  rw [mem_all_ancestors (WF_pruneHandles hg keep), mem_all_ancestors hg]
  constructor
  · rintro ⟨hne, hr⟩
    exact ⟨hne, rtg_parent_pruneHandles_mp hg.1 hr⟩
  · rintro ⟨hne, hr⟩
    exact ⟨hne, rtg_parent_pruneHandles_mpr hg hcl hh hr⟩

theorem all_descendants_pruneHandles {g : Graph} (hg : WF g) {keep : Finset Nat}
    (hcl : ∀ a b, a ∈ keep → parentRel g a b → b ∈ keep) {h : Nat} (hh : h ∈ keep) :
    all_descendants (pruneHandles g keep) h = all_descendants g h ∩ keep := by
  ext x
  rw [Finset.mem_inter, mem_all_descendants (WF_pruneHandles hg keep),
    mem_all_descendants hg]
  constructor
  · rintro ⟨hne, hr⟩
    obtain ⟨hr', hor⟩ := rtg_child_pruneHandles_mp hg.1 hr
    rcases hor with rfl | hk
    · exact absurd rfl hne
    · exact ⟨⟨hne, hr'⟩, hk⟩
  · rintro ⟨⟨hne, hr⟩, hk⟩
    exact ⟨hne, rtg_child_pruneHandles_mpr hg hcl hh hr hk⟩

theorem handle_of_prune {g : Graph} (hg : WF g) (used : List String) (id : String) :
    handle_of (prune g used) id =
      (handle_of g id).bind
        (fun h => if h ∈ retainSet g used then some h else none) := by
  unfold prune
  exact handle_of_pruneHandles hg.2.1 (retainSet g used) id

theorem usedHandles_prune {g : Graph} (hg : WF g) (used : List String) :
    usedHandles (prune g used) used = usedHandles g used := by
  ext x
  rw [mem_usedHandles, mem_usedHandles]
  constructor
  · rintro ⟨id, hid, hx⟩
    rw [handle_of_prune hg used id] at hx
    cases hy : handle_of g id with
    | none => rw [hy] at hx; exact absurd hx (by simp)
    | some h =>
      rw [hy, Option.some_bind] at hx
      by_cases hk : h ∈ retainSet g used
      · rw [if_pos hk] at hx
        exact ⟨id, hid, hy.trans (by simpa using hx)⟩
      · rw [if_neg hk] at hx
        exact absurd hx (by simp)
  · rintro ⟨id, hid, hx⟩
    have hR : x ∈ retainSet g used :=
      usedHandles_subset_retainSet g used (mem_usedHandles.mpr ⟨id, hid, hx⟩)
    refine ⟨id, hid, ?_⟩
    rw [handle_of_prune hg used id, hx, Option.some_bind, if_pos hR]

theorem retainSet_prune {g : Graph} (hg : WF g) (used : List String) :
    retainSet (prune g used) used = retainSet g used := by
  unfold retainSet
  rw [usedHandles_prune hg used]
  congr 1
  refine Finset.biUnion_congr rfl ?_
  intro b hb
  show all_ancestors (pruneHandles g (retainSet g used)) b = all_ancestors g b
  exact all_ancestors_pruneHandles hg (retain_parent_closed hg used)
    (usedHandles_subset_retainSet g used hb)

theorem pruneMap_idem (keep : Finset Nat) (e : CodeEntry) :
    pruneMap keep (pruneMap keep e) = pruneMap keep e := by
  cases e with
  | mk h i d ps cs =>
    unfold pruneMap
    simp only []
    congr 1
    · exact List.filter_eq_self.mpr (fun x hx => (List.mem_filter.mp hx).2)
    · exact List.filter_eq_self.mpr (fun x hx => (List.mem_filter.mp hx).2)

theorem pruneHandles_idem (g : Graph) (keep : Finset Nat) :
    pruneHandles (pruneHandles g keep) keep = pruneHandles g keep := by
  unfold pruneHandles
  congr 1
  have h1 : ((g.entries.filter (fun e => decide (e.handle ∈ keep))).map
        (pruneMap keep)).filter (fun e => decide (e.handle ∈ keep)) =
      (g.entries.filter (fun e => decide (e.handle ∈ keep))).map (pruneMap keep) := by
    refine List.filter_eq_self.mpr ?_
    intro x hx
    obtain ⟨e, he, rfl⟩ := List.mem_map.mp hx
    have := (List.mem_filter.mp he).2
    simpa [pruneMap_handle] using this
  rw [h1, List.map_map]
  refine List.map_congr_left ?_
  intro e _
  exact pruneMap_idem keep e

/-! ### Invariant preservation by the mutating operations -/

theorem WF_emptyGraph : WF emptyGraph := by decide

theorem entryOf_append (g : Graph) (l' : List CodeEntry) (h : Nat) :
    entryOf ⟨g.entries ++ l'⟩ h =
      (entryOf g h).or (l'.find? (fun e => e.handle == h)) := by
  unfold entryOf
  exact List.find?_append

theorem children_of_append_left {g : Graph} {l' : List CodeEntry} {h : Nat}
    (hreg : h ∈ handlesList g) : children_of ⟨g.entries ++ l'⟩ h = children_of g h := by
  have hs : (entryOf g h).isSome = true := entryOf_isSome_iff.mpr hreg
  unfold children_of
  rw [entryOf_append]
  cases he : entryOf g h with
  | none => rw [he] at hs; simp at hs
  | some e => rfl

theorem parents_of_append_left {g : Graph} {l' : List CodeEntry} {h : Nat}
    (hreg : h ∈ handlesList g) : parents_of ⟨g.entries ++ l'⟩ h = parents_of g h := by
  have hs : (entryOf g h).isSome = true := entryOf_isSome_iff.mpr hreg
  unfold parents_of
  rw [entryOf_append]
  cases he : entryOf g h with
  | none => rw [he] at hs; simp at hs
  | some e => rfl

theorem WF_register {g : Graph} (hg : WF g) (id : String) (d : Option String) :
    WF (register g id d).1 := by
  unfold register
  cases he : entryOfIdent g id with
  | some e => exact hg
  | none =>
    have hfresh : freshHandle g ∉ handlesList g := fun hmem =>
      Nat.lt_irrefl _ (freshHandle_gt hmem)
    have hid : id ∉ identsList g := by
      intro hmem
      obtain ⟨e, hee, hie⟩ := mem_identsList.mp hmem
      have := List.find?_eq_none.mp he e hee
      simp [hie] at this
    refine ⟨?_, ?_, ?_, ?_, ?_, ?_⟩
    · show (Graph.mk (g.entries ++ [⟨freshHandle g, id, d, [], []⟩])).entries.map
        (fun e => e.handle) |>.Nodup
      rw [List.map_append]
      refine (List.nodup_append).mpr ⟨hg.1, List.nodup_singleton _, ?_⟩
      intro a ha hb
      have : a = freshHandle g := by simpa using hb
      exact hfresh (this ▸ ha)
    · show (Graph.mk (g.entries ++ [⟨freshHandle g, id, d, [], []⟩])).entries.map
        (fun e => e.ident) |>.Nodup
      rw [List.map_append]
      refine (List.nodup_append).mpr ⟨hg.2.1, List.nodup_singleton _, ?_⟩
      intro a ha hb
      have : a = id := by simpa using hb
      exact hid (this ▸ ha)
    · intro e he' q hq
      rcases List.mem_append.mp he' with hmem | hmem
      · have := hg.2.2.1 e hmem q hq
        rw [mem_handlesList] at this ⊢
        obtain ⟨e₁, he₁, hh₁⟩ := this
        exact ⟨e₁, List.mem_append_left _ he₁, hh₁⟩
      · have : e = ⟨freshHandle g, id, d, [], []⟩ := by simpa using hmem
        subst this
        simp at hq
    · intro e he' q hq
      rcases List.mem_append.mp he' with hmem | hmem
      · have := hg.2.2.2.1 e hmem q hq
        rw [mem_handlesList] at this ⊢
        obtain ⟨e₁, he₁, hh₁⟩ := this
        exact ⟨e₁, List.mem_append_left _ he₁, hh₁⟩
      · have : e = ⟨freshHandle g, id, d, [], []⟩ := by simpa using hmem
        subst this
        simp at hq
    · intro e he' q hq
      rcases List.mem_append.mp he' with hmem | hmem
      · have hqreg : q ∈ handlesList g := hg.2.2.1 e hmem q hq
        have : children_of (Graph.mk (g.entries ++ [⟨freshHandle g, id, d, [], []⟩])) q
            = children_of g q := children_of_append_left hqreg
        rw [this]
        exact hg.2.2.2.2.1 e hmem q hq
      · have : e = ⟨freshHandle g, id, d, [], []⟩ := by simpa using hmem
        subst this
        simp at hq
    · intro e he' q hq
      rcases List.mem_append.mp he' with hmem | hmem
      · have hqreg : q ∈ handlesList g := hg.2.2.2.1 e hmem q hq
        have : parents_of (Graph.mk (g.entries ++ [⟨freshHandle g, id, d, [], []⟩])) q
            = parents_of g q := parents_of_append_left hqreg
        rw [this]
        exact hg.2.2.2.2.2 e hmem q hq
      · have : e = ⟨freshHandle g, id, d, [], []⟩ := by simpa using hmem
        subst this
        simp at hq

theorem entryOf_map_adjpres {g : Graph} {u : CodeEntry → CodeEntry}
    (hh : ∀ e, (u e).handle = e.handle) (h : Nat) :
    entryOf ⟨g.entries.map u⟩ h = (entryOf g h).map u :=
  find?_map_keyinv (fun x : CodeEntry => x.handle) u hh g.entries h

theorem parents_of_map_adjpres {g : Graph} {u : CodeEntry → CodeEntry}
    (hh : ∀ e, (u e).handle = e.handle) (hp : ∀ e, (u e).parents = e.parents)
    (h : Nat) : parents_of ⟨g.entries.map u⟩ h = parents_of g h := by
  unfold parents_of
  rw [entryOf_map_adjpres hh]
  cases entryOf g h with
  | none => rfl
  | some e => simp [hp]

theorem children_of_map_adjpres {g : Graph} {u : CodeEntry → CodeEntry}
    (hh : ∀ e, (u e).handle = e.handle) (hc : ∀ e, (u e).children = e.children)
    (h : Nat) : children_of ⟨g.entries.map u⟩ h = children_of g h := by
  unfold children_of
  rw [entryOf_map_adjpres hh]
  cases entryOf g h with
  | none => rfl
  | some e => simp [hc]

theorem WF_map_adjpres {g : Graph} (hg : WF g) {u : CodeEntry → CodeEntry}
    (hh : ∀ e, (u e).handle = e.handle) (hi : ∀ e, (u e).ident = e.ident)
    (hp : ∀ e, (u e).parents = e.parents) (hc : ∀ e, (u e).children = e.children) :
    WF ⟨g.entries.map u⟩ := by
  have hhl : handlesList ⟨g.entries.map u⟩ = handlesList g := by
    unfold handlesList
    rw [List.map_map]
    exact List.map_congr_left (fun e _ => hh e)
  have hil : identsList ⟨g.entries.map u⟩ = identsList g := by
    unfold identsList
    rw [List.map_map]
    exact List.map_congr_left (fun e _ => hi e)
  refine ⟨hhl ▸ hg.1, hil ▸ hg.2.1, ?_, ?_, ?_, ?_⟩
  · rintro e' he' q hq
    obtain ⟨e, he, rfl⟩ := List.mem_map.mp he'
    rw [hp e] at hq
    rw [hhl]
    exact hg.2.2.1 e he q hq
  · rintro e' he' q hq
    obtain ⟨e, he, rfl⟩ := List.mem_map.mp he'
    rw [hc e] at hq
    rw [hhl]
    exact hg.2.2.2.1 e he q hq
  · rintro e' he' q hq
    obtain ⟨e, he, rfl⟩ := List.mem_map.mp he'
    rw [hp e] at hq
    rw [hh e, children_of_map_adjpres hh hc]
    exact hg.2.2.2.2.1 e he q hq
  · rintro e' he' q hq
    obtain ⟨e, he, rfl⟩ := List.mem_map.mp he'
    rw [hc e] at hq
    rw [hh e, parents_of_map_adjpres hh hp]
    exact hg.2.2.2.2.2 e he q hq

theorem WF_merge_metadata {g : Graph} (hg : WF g) (id : String) (d : String) :
    WF (merge_metadata g id d) := by
  unfold merge_metadata
  cases he : entryOfIdent g id with
  | some e =>
    refine WF_map_adjpres hg ?_ ?_ ?_ ?_ <;>
      (intro e'; by_cases hc : e'.ident == id <;> simp [hc])
  | none => exact WF_register hg id (some d)

/-! ### Edge insertion lemmas -/

theorem addEdgeEntry_handle (p c : Nat) (e : CodeEntry) :
    (addEdgeEntry p c e).handle = e.handle := by
  unfold addEdgeEntry addEdgeParent addEdgeChild
  split <;> split <;> rfl

theorem addEdgeEntry_ident (p c : Nat) (e : CodeEntry) :
    (addEdgeEntry p c e).ident = e.ident := by
  unfold addEdgeEntry addEdgeParent addEdgeChild
  split <;> split <;> rfl

theorem addEdgeChild_handle (p c : Nat) (e : CodeEntry) :
    (addEdgeChild p c e).handle = e.handle := by
  unfold addEdgeChild
  split <;> rfl

theorem addEdgeChild_parents (p c : Nat) (e : CodeEntry) :
    (addEdgeChild p c e).parents = e.parents := by
  unfold addEdgeChild
  split <;> rfl

theorem addEdgeParent_children (p c : Nat) (e : CodeEntry) :
    (addEdgeParent p c e).children = e.children := by
  unfold addEdgeParent
  split <;> rfl

theorem mem_parents_addEdgeEntry {p c : Nat} {e : CodeEntry} {x : Nat} :
    x ∈ (addEdgeEntry p c e).parents ↔ x ∈ e.parents ∨ (x = p ∧ e.handle = c) := by
  unfold addEdgeEntry addEdgeParent
  rw [addEdgeChild_handle, addEdgeChild_parents]
  by_cases h1 : e.handle = c
  · by_cases h2 : p ∈ e.parents
    · rw [if_neg (by simp [h2])]
      rw [addEdgeChild_parents]
      constructor
      · intro hx
        exact Or.inl hx
      · rintro (hx | ⟨rfl, _⟩)
        · exact hx
        · exact h2
    · rw [if_pos ⟨h1, h2⟩]
      simp only [List.mem_cons, addEdgeChild_parents]
      constructor
      · rintro (rfl | hx)
        · exact Or.inr ⟨rfl, h1⟩
        · exact Or.inl hx
      · rintro (hx | ⟨rfl, _⟩)
        · exact Or.inr hx
        · exact Or.inl rfl
  · rw [if_neg (by simp [h1])]
    rw [addEdgeChild_parents]
    constructor
    · exact fun hx => Or.inl hx
    · rintro (hx | ⟨_, hcc⟩)
      · exact hx
      · exact absurd hcc h1

theorem mem_children_addEdgeEntry {p c : Nat} {e : CodeEntry} {x : Nat} :
    x ∈ (addEdgeEntry p c e).children ↔ x ∈ e.children ∨ (x = c ∧ e.handle = p) := by
  unfold addEdgeEntry
  rw [addEdgeParent_children]
  unfold addEdgeChild
  by_cases h1 : e.handle = p
  · by_cases h2 : c ∈ e.children
    · rw [if_neg (by simp [h2])]
      constructor
      · exact fun hx => Or.inl hx
      · rintro (hx | ⟨rfl, _⟩)
        · exact hx
        · exact h2
    · rw [if_pos ⟨h1, h2⟩]
      simp only [List.mem_cons]
      constructor
      · rintro (rfl | hx)
        · exact Or.inr ⟨rfl, h1⟩
        · exact Or.inl hx
      · rintro (hx | ⟨rfl, _⟩)
        · exact Or.inr hx
        · exact Or.inl rfl
  · rw [if_neg (by simp [h1])]
    constructor
    · exact fun hx => Or.inl hx
    · rintro (hx | ⟨_, hcc⟩)
      · exact hx
      · exact absurd hcc h1

theorem mem_parents_of_addEdgeGraph {g : Graph} {p c h x : Nat} :
    x ∈ parents_of ⟨g.entries.map (addEdgeEntry p c)⟩ h ↔
      x ∈ parents_of g h ∨ (x = p ∧ h = c ∧ h ∈ handlesList g) := by
  unfold parents_of
  rw [entryOf_map_adjpres (addEdgeEntry_handle p c)]
  cases he : entryOf g h with
  | none =>
    have : h ∉ handlesList g := by
      intro hmem
      have := entryOf_isSome_iff.mpr hmem
      rw [he] at this
      simp at this
    simp [this]
  | some e =>
    have hreg : h ∈ handlesList g := entryOf_isSome_iff.mp (by rw [he]; rfl)
    have hhd : e.handle = h := (entryOf_spec he).2
    simp only [Option.map_some', Option.getD_some]
    rw [mem_parents_addEdgeEntry, hhd]
    constructor
    · rintro (hx | ⟨rfl, rfl⟩)
      · exact Or.inl hx
      · exact Or.inr ⟨rfl, rfl, hreg⟩
    · rintro (hx | ⟨rfl, rfl, _⟩)
      · exact Or.inl hx
      · exact Or.inr ⟨rfl, rfl⟩

theorem mem_children_of_addEdgeGraph {g : Graph} {p c h x : Nat} :
    x ∈ children_of ⟨g.entries.map (addEdgeEntry p c)⟩ h ↔
      x ∈ children_of g h ∨ (x = c ∧ h = p ∧ h ∈ handlesList g) := by
  unfold children_of
  rw [entryOf_map_adjpres (addEdgeEntry_handle p c)]
  cases he : entryOf g h with
  | none =>
    have : h ∉ handlesList g := by
      intro hmem
      have := entryOf_isSome_iff.mpr hmem
      rw [he] at this
      simp at this
    simp [this]
  | some e =>
    have hreg : h ∈ handlesList g := entryOf_isSome_iff.mp (by rw [he]; rfl)
    have hhd : e.handle = h := (entryOf_spec he).2
    simp only [Option.map_some', Option.getD_some]
    rw [mem_children_addEdgeEntry, hhd]
    constructor
    · rintro (hx | ⟨rfl, rfl⟩)
      · exact Or.inl hx
      · exact Or.inr ⟨rfl, rfl, hreg⟩
    · rintro (hx | ⟨rfl, rfl, _⟩)
      · exact Or.inl hx
      · exact Or.inr ⟨rfl, rfl⟩

theorem WF_addEdgeGraph {g : Graph} (hg : WF g) {p c : Nat}
    (hp : p ∈ handlesList g) (hc : c ∈ handlesList g) :
    WF ⟨g.entries.map (addEdgeEntry p c)⟩ := by
  have hhl : handlesList ⟨g.entries.map (addEdgeEntry p c)⟩ = handlesList g := by
    unfold handlesList
    rw [List.map_map]
    exact List.map_congr_left (fun e _ => addEdgeEntry_handle p c e)
  have hil : identsList ⟨g.entries.map (addEdgeEntry p c)⟩ = identsList g := by
    unfold identsList
    rw [List.map_map]
    exact List.map_congr_left (fun e _ => addEdgeEntry_ident p c e)
  refine ⟨hhl ▸ hg.1, hil ▸ hg.2.1, ?_, ?_, ?_, ?_⟩
  · rintro e' he' q hq
    obtain ⟨e, he, rfl⟩ := List.mem_map.mp he'
    rw [hhl]
    rcases mem_parents_addEdgeEntry.mp hq with hx | ⟨rfl, _⟩
    · exact hg.2.2.1 e he q hx
    · exact hp
  · rintro e' he' q hq
    obtain ⟨e, he, rfl⟩ := List.mem_map.mp he'
    rw [hhl]
    rcases mem_children_addEdgeEntry.mp hq with hx | ⟨rfl, _⟩
    · exact hg.2.2.2.1 e he q hx
    · exact hc
  · rintro e' he' q hq
    obtain ⟨e, he, rfl⟩ := List.mem_map.mp he'
    rw [addEdgeEntry_handle]
    rcases mem_parents_addEdgeEntry.mp hq with hx | ⟨rfl, hec⟩
    · exact mem_children_of_addEdgeGraph.mpr (Or.inl (hg.2.2.2.2.1 e he q hx))
    · exact mem_children_of_addEdgeGraph.mpr (Or.inr ⟨hec.symm ▸ rfl, rfl, hp⟩)
  · rintro e' he' q hq
    obtain ⟨e, he, rfl⟩ := List.mem_map.mp he'
    rw [addEdgeEntry_handle]
    rcases mem_children_addEdgeEntry.mp hq with hx | ⟨rfl, hep⟩
    · exact mem_parents_of_addEdgeGraph.mpr (Or.inl (hg.2.2.2.2.2 e he q hx))
    · exact mem_parents_of_addEdgeGraph.mpr (Or.inr ⟨hep.symm ▸ rfl, rfl, hc⟩)

theorem add_edge_ok {g : Graph} {p c : Nat} {g' : Graph}
    (h : add_edge g p c = Except.ok g') :
    p ∈ handlesList g ∧ c ∈ handlesList g ∧ p ≠ c ∧
      g' = ⟨g.entries.map (addEdgeEntry p c)⟩ := by
  unfold add_edge at h
  by_cases h1 : (entryOf g p).isNone ∨ (entryOf g c).isNone
  · rw [if_pos h1] at h
    exact absurd h (by simp)
  · rw [if_neg h1] at h
    push_neg at h1
    by_cases h2 : p = c
    · rw [if_pos h2] at h
      exact absurd h (by simp)
    · rw [if_neg h2] at h
      have hp : p ∈ handlesList g := by
        rw [← entryOf_isSome_iff]
        cases hh : entryOf g p with
        | none => exact absurd (by simp [hh] : (entryOf g p).isNone = true) (by simp [h1.1])
        | some e => rfl
      have hc : c ∈ handlesList g := by
        rw [← entryOf_isSome_iff]
        cases hh : entryOf g c with
        | none => exact absurd (by simp [hh] : (entryOf g c).isNone = true) (by simp [h1.2])
        | some e => rfl
      exact ⟨hp, hc, h2, by injection h with h; exact h.symm⟩

theorem WF_add_edge {g : Graph} (hg : WF g) {p c : Nat} {g' : Graph}
    (h : add_edge g p c = Except.ok g') : WF g' := by
  obtain ⟨hp, hc, _, rfl⟩ := add_edge_ok h
  exact WF_addEdgeGraph hg hp hc

theorem WF_deserialize {rs : List VocabRecord} {g' : Graph}
    (h : deserialize rs = some g') : WF g' := by
  unfold deserialize at h
  by_cases hw : WF (buildFrom rs)
  · rw [if_pos hw] at h
    injection h with h
    exact h ▸ hw
  · rw [if_neg hw] at h
    exact absurd h (by simp)

theorem add_edge_invalid {g : Graph} {p c : Nat}
    (h : (entryOf g p).isNone ∨ (entryOf g c).isNone) :
    add_edge g p c = Except.error EdgeError.InvalidHandle := by
  unfold add_edge
  rw [if_pos h]

theorem add_edge_selfloop {g : Graph} {p c : Nat}
    (hp : (entryOf g p).isSome = true) (hc : (entryOf g c).isSome = true)
    (hpc : p = c) : add_edge g p c = Except.error EdgeError.SelfLoop := by
  unfold add_edge
  rw [if_neg, if_pos hpc]
  rintro (h | h)
  · rw [Option.isNone_iff_eq_none] at h
    rw [h] at hp
    exact absurd hp (by simp)
  · rw [Option.isNone_iff_eq_none] at h
    rw [h] at hc
    exact absurd hc (by simp)

theorem addEdgeEntry_idem (p c : Nat) (e : CodeEntry) :
    addEdgeEntry p c (addEdgeEntry p c e) = addEdgeEntry p c e := by
  have hch : c ∈ (addEdgeEntry p c e).children ∨ (addEdgeEntry p c e).handle ≠ p := by
    by_cases h : e.handle = p
    · exact Or.inl (mem_children_addEdgeEntry.mpr (Or.inr ⟨rfl, h⟩))
    · exact Or.inr (by rw [addEdgeEntry_handle]; exact h)
  have hpa : p ∈ (addEdgeEntry p c e).parents ∨ (addEdgeEntry p c e).handle ≠ c := by
    by_cases h : e.handle = c
    · exact Or.inl (mem_parents_addEdgeEntry.mpr (Or.inr ⟨rfl, h⟩))
    · exact Or.inr (by rw [addEdgeEntry_handle]; exact h)
  have h1 : addEdgeChild p c (addEdgeEntry p c e) = addEdgeEntry p c e := by
    unfold addEdgeChild
    rw [if_neg]
    rintro ⟨hh, hnc⟩
    rcases hch with hc' | hne
    · exact hnc hc'
    · exact hne hh
  have h2 : addEdgeParent p c (addEdgeEntry p c e) = addEdgeEntry p c e := by
    unfold addEdgeParent
    rw [if_neg]
    rintro ⟨hh, hnp⟩
    rcases hpa with hp' | hne
    · exact hnp hp'
    · exact hne hh
  show addEdgeParent p c (addEdgeChild p c (addEdgeEntry p c e)) = addEdgeEntry p c e
  rw [h1, h2]

theorem add_edge_idem {g : Graph} {p c : Nat} {g' : Graph}
    (h : add_edge g p c = Except.ok g') : add_edge g' p c = Except.ok g' := by
  obtain ⟨hp, hc, hpc, rfl⟩ := add_edge_ok h
  have hhl : handlesList ⟨g.entries.map (addEdgeEntry p c)⟩ = handlesList g := by
    unfold handlesList
    rw [List.map_map]
    exact List.map_congr_left (fun e _ => addEdgeEntry_handle p c e)
  have hp' : (entryOf ⟨g.entries.map (addEdgeEntry p c)⟩ p).isSome = true :=
    entryOf_isSome_iff.mpr (hhl ▸ hp)
  have hc' : (entryOf ⟨g.entries.map (addEdgeEntry p c)⟩ c).isSome = true :=
    entryOf_isSome_iff.mpr (hhl ▸ hc)
  unfold add_edge
  rw [if_neg, if_neg hpc]
  · show Except.ok (Graph.mk ((g.entries.map (addEdgeEntry p c)).map (addEdgeEntry p c)))
      = Except.ok (Graph.mk (g.entries.map (addEdgeEntry p c)))
    rw [List.map_map]
    have : g.entries.map (addEdgeEntry p c ∘ addEdgeEntry p c) =
        g.entries.map (addEdgeEntry p c) :=
      List.map_congr_left (fun e _ => addEdgeEntry_idem p c e)
    rw [this]
  · rintro (hbad | hbad)
    · rw [Option.isNone_iff_eq_none] at hbad
      rw [hbad] at hp'
      exact absurd hp' (by simp)
    · rw [Option.isNone_iff_eq_none] at hbad
      rw [hbad] at hc'
      exact absurd hc' (by simp)

theorem WF_prune {g : Graph} (hg : WF g) (used : List String) : WF (prune g used) :=
  WF_pruneHandles hg (retainSet g used)

theorem prune_prune {g : Graph} (hg : WF g) (used : List String) :
    prune (prune g used) used = prune g used := by
  have h1 : prune (prune g used) used =
      pruneHandles (prune g used) (retainSet (prune g used) used) := rfl
  rw [h1, retainSet_prune hg used]
  exact pruneHandles_idem g (retainSet g used)

/-! ### Unknown used codes are silently ignored -/

theorem usedHandles_append_unknown {g : Graph} {unk used : List String}
    (h : ∀ u ∈ unk, handle_of g u = none) :
    usedHandles g (unk ++ used) = usedHandles g used := by
  unfold usedHandles
  rw [List.filterMap_append]
  have hnil : unk.filterMap (handle_of g) = [] :=
    List.filterMap_eq_nil_iff.mpr h
  rw [hnil, List.nil_append]

theorem prune_append_unknown {g : Graph} {unk used : List String}
    (h : ∀ u ∈ unk, handle_of g u = none) :
    prune g (unk ++ used) = prune g used := by
  unfold prune
  have hret : retainSet g (unk ++ used) = retainSet g used := by
    unfold retainSet
    rw [usedHandles_append_unknown h]
  rw [hret]

/-! ### Pruned registry queries -/

theorem isKnown_prune {g : Graph} (hg : WF g) (used : List String) (id : String) :
    isKnown (prune g used) id = true ↔
      ∃ h, handle_of g id = some h ∧ h ∈ retainSet g used := by
  unfold isKnown
  rw [handle_of_prune hg used id]
  cases hh : handle_of g id with
  | none => simp
  | some h =>
    rw [Option.some_bind]
    by_cases hk : h ∈ retainSet g used
    · simp [hk]
    · simp [hk]

theorem get_description_prune {g : Graph} (hg : WF g) (used : List String)
    {id : String} (hk : isKnown (prune g used) id = true) :
    get_description (prune g used) id = get_description g id := by
  obtain ⟨h, hh, hr⟩ := (isKnown_prune hg used id).mp hk
  unfold get_description
  have hpe := entryOfIdent_pruneHandles hg.2.1 (retainSet g used) id
  have hpe' : entryOfIdent (prune g used) id =
      (entryOfIdent g id).bind
        (fun e => if e.handle ∈ retainSet g used then some (pruneMap (retainSet g used) e) else none) := hpe
  rw [hpe']
  cases he : entryOfIdent g id with
  | none =>
    unfold handle_of at hh
    rw [he] at hh
    exact absurd hh (by simp)
  | some e =>
    have hhe : e.handle = h := by
      unfold handle_of at hh
      rw [he] at hh
      simpa using hh
    rw [Option.some_bind, if_pos (hhe ▸ hr)]
    rfl

/-! ### Identifier-level queries and reachability -/

theorem mem_identsOfHandles {g : Graph} {hs : List Nat} {x : String} :
    x ∈ identsOfHandles g hs ↔ ∃ h ∈ hs, identifier_of g h = some x := by
  unfold identsOfHandles
  rw [List.mem_toFinset, List.mem_filterMap]

theorem mem_identsOfFinset {g : Graph} {s : Finset Nat} {x : String} :
    x ∈ identsOfFinset g s ↔ ∃ h ∈ s, identifier_of g h = some x := by
  unfold identsOfFinset
  rw [Finset.mem_biUnion]
  constructor
  · rintro ⟨h, hh, hx⟩
    rw [List.mem_toFinset, Option.mem_toList] at hx
    exact ⟨h, hh, hx⟩
  · rintro ⟨h, hh, hx⟩
    exact ⟨h, hh, by rw [List.mem_toFinset, Option.mem_toList]; exact hx⟩

theorem mem_get_parents {g : Graph} {id pid : String} :
    pid ∈ get_parents g id ↔
      ∃ h, handle_of g id = some h ∧
        ∃ p ∈ parents_of g h, identifier_of g p = some pid := by
  unfold get_parents
  cases hh : handle_of g id with
  | none => simp
  | some h =>
    simp only [Option.map_some', Option.getD_some, mem_identsOfHandles]
    constructor
    · rintro ⟨p, hp, hpid⟩
      exact ⟨h, rfl, p, hp, hpid⟩
    · rintro ⟨h', hh', p, hp, hpid⟩
      have : h' = h := by
        injection hh' with hv
        exact hv.symm
      subst this
      exact ⟨p, hp, hpid⟩

theorem mem_get_children {g : Graph} {id cid : String} :
    cid ∈ get_children g id ↔
      ∃ h, handle_of g id = some h ∧
        ∃ c ∈ children_of g h, identifier_of g c = some cid := by
  unfold get_children
  cases hh : handle_of g id with
  | none => simp
  | some h =>
    simp only [Option.map_some', Option.getD_some, mem_identsOfHandles]
    constructor
    · rintro ⟨c, hc, hcid⟩
      exact ⟨h, rfl, c, hc, hcid⟩
    · rintro ⟨h', hh', c, hc, hcid⟩
      have : h' = h := by
        injection hh' with hv
        exact hv.symm
      subst this
      exact ⟨c, hc, hcid⟩

theorem mem_get_all_parents_pre {g : Graph} {id y : String} :
    y ∈ get_all_parents g id ↔
      ∃ h, handle_of g id = some h ∧
        ∃ q ∈ all_ancestors g h, identifier_of g q = some y := by
  unfold get_all_parents
  cases hh : handle_of g id with
  | none => simp
  | some h =>
    simp only [Option.map_some', Option.getD_some, mem_identsOfFinset]
    constructor
    · rintro ⟨q, hq, hy⟩
      exact ⟨h, rfl, q, hq, hy⟩
    · rintro ⟨h', hh', q, hq, hy⟩
      have : h' = h := by
        injection hh' with hv
        exact hv.symm
      subst this
      exact ⟨q, hq, hy⟩

theorem mem_get_all_children_pre {g : Graph} {id y : String} :
    y ∈ get_all_children g id ↔
      ∃ h, handle_of g id = some h ∧
        ∃ q ∈ all_descendants g h, identifier_of g q = some y := by
  unfold get_all_children
  cases hh : handle_of g id with
  | none => simp
  | some h =>
    simp only [Option.map_some', Option.getD_some, mem_identsOfFinset]
    constructor
    · rintro ⟨q, hq, hy⟩
      exact ⟨h, rfl, q, hq, hy⟩
    · rintro ⟨h', hh', q, hq, hy⟩
      have : h' = h := by
        injection hh' with hv
        exact hv.symm
      subst this
      exact ⟨q, hq, hy⟩

theorem rtg_parent_ident_of_handle {g : Graph} (hg : WF g) {ha hb : Nat}
    (hr : Relation.ReflTransGen (parentRel g) ha hb) :
    ∀ {ida : String}, identifier_of g ha = some ida →
      ∃ idb, identifier_of g hb = some idb ∧
        Relation.ReflTransGen (identParentRel g) ida idb := by
  induction hr with
  | refl => exact fun hida => ⟨_, hida, Relation.ReflTransGen.refl⟩
  | @tail m q _ hstep ih =>
    intro ida hida
    obtain ⟨idm, hidm, hrm⟩ := ih hida
    have hqreg : q ∈ handlesList g := parents_of_mem_handles hg hstep
    obtain ⟨idq, hidq⟩ := identifier_of_isSome hqreg
    refine ⟨idq, hidq, hrm.tail ?_⟩
    show idq ∈ get_parents g idm
    rw [mem_get_parents]
    exact ⟨m, (handle_of_iff_identifier_of hg).mpr hidm, q, hstep, hidq⟩

theorem rtg_parent_handle_of_ident {g : Graph} (hg : WF g) {ida idb : String}
    (hr : Relation.ReflTransGen (identParentRel g) ida idb) :
    ∀ {ha : Nat}, handle_of g ida = some ha →
      ∃ hb, handle_of g idb = some hb ∧
        Relation.ReflTransGen (parentRel g) ha hb := by
  induction hr with
  | refl => exact fun hha => ⟨_, hha, Relation.ReflTransGen.refl⟩
  | @tail m q _ hstep ih =>
    intro ha hha
    obtain ⟨hm, hhm, hrm⟩ := ih hha
    obtain ⟨hm', hhm', p, hp, hidp⟩ := mem_get_parents.mp hstep
    have heq : hm' = hm := by
      rw [hhm] at hhm'
      injection hhm' with hv
      exact hv.symm
    subst heq
    exact ⟨p, (handle_of_iff_identifier_of hg).mpr hidp, hrm.tail hp⟩

theorem rtg_child_ident_of_handle {g : Graph} (hg : WF g) {ha hb : Nat}
    (hr : Relation.ReflTransGen (childRel g) ha hb) :
    ∀ {ida : String}, identifier_of g ha = some ida →
      ∃ idb, identifier_of g hb = some idb ∧
        Relation.ReflTransGen (identChildRel g) ida idb := by
  induction hr with
  | refl => exact fun hida => ⟨_, hida, Relation.ReflTransGen.refl⟩
  | @tail m q _ hstep ih =>
    intro ida hida
    obtain ⟨idm, hidm, hrm⟩ := ih hida
    have hqreg : q ∈ handlesList g := children_of_mem_handles hg hstep
    obtain ⟨idq, hidq⟩ := identifier_of_isSome hqreg
    refine ⟨idq, hidq, hrm.tail ?_⟩
    show idq ∈ get_children g idm
    rw [mem_get_children]
    exact ⟨m, (handle_of_iff_identifier_of hg).mpr hidm, q, hstep, hidq⟩

theorem rtg_child_handle_of_ident {g : Graph} (hg : WF g) {ida idb : String}
    (hr : Relation.ReflTransGen (identChildRel g) ida idb) :
    ∀ {ha : Nat}, handle_of g ida = some ha →
      ∃ hb, handle_of g idb = some hb ∧
        Relation.ReflTransGen (childRel g) ha hb := by
  induction hr with
  | refl => exact fun hha => ⟨_, hha, Relation.ReflTransGen.refl⟩
  | @tail m q _ hstep ih =>
    intro ha hha
    obtain ⟨hm, hhm, hrm⟩ := ih hha
    obtain ⟨hm', hhm', c, hc, hidc⟩ := mem_get_children.mp hstep
    have heq : hm' = hm := by
      rw [hhm] at hhm'
      injection hhm' with hv
      exact hv.symm
    subst heq
    exact ⟨c, (handle_of_iff_identifier_of hg).mpr hidc, hrm.tail hc⟩

theorem mem_get_all_parents_iff {g : Graph} (hg : WF g) {x y : String} :
    y ∈ get_all_parents g x ↔
      isKnown g x = true ∧ y ≠ x ∧
        Relation.ReflTransGen (identParentRel g) x y := by
  rw [mem_get_all_parents_pre]
  constructor
  · rintro ⟨h, hh, q, hq, hidq⟩
    have hk : isKnown g x = true := by
      unfold isKnown
      rw [hh]
      rfl
    obtain ⟨hne, hr⟩ := (mem_all_ancestors hg).mp hq
    have hidh : identifier_of g h = some x := (handle_of_iff_identifier_of hg).mp hh
    have hyx : y ≠ x := by
      rintro rfl
      have := (handle_of_iff_identifier_of hg).mpr hidq
      rw [hh] at this
      injection this with this
      exact hne this.symm
    obtain ⟨idb, hidb, hri⟩ := rtg_parent_ident_of_handle hg hr hidh
    have hby : idb = y := by
      rw [hidq] at hidb
      injection hidb with hv
      exact hv.symm
    exact ⟨hk, hyx, hby ▸ hri⟩
  · rintro ⟨hk, hyx, hri⟩
    obtain ⟨h, hh⟩ := Option.isSome_iff_exists.mp hk
    obtain ⟨hb, hhb, hr⟩ := rtg_parent_handle_of_ident hg hri hh
    refine ⟨h, hh, hb, (mem_all_ancestors hg).mpr ⟨?_, hr⟩,
      (handle_of_iff_identifier_of hg).mp hhb⟩
    rintro rfl
    have h1 := (handle_of_iff_identifier_of hg).mp hh
    have h2 := (handle_of_iff_identifier_of hg).mp hhb
    rw [h1] at h2
    injection h2 with h2
    exact hyx h2.symm

theorem mem_get_all_children_iff {g : Graph} (hg : WF g) {x y : String} :
    y ∈ get_all_children g x ↔
      isKnown g x = true ∧ y ≠ x ∧
        Relation.ReflTransGen (identChildRel g) x y := by
  rw [mem_get_all_children_pre]
  constructor
  · rintro ⟨h, hh, q, hq, hidq⟩
    have hk : isKnown g x = true := by
      unfold isKnown
      rw [hh]
      rfl
    obtain ⟨hne, hr⟩ := (mem_all_descendants hg).mp hq
    have hidh : identifier_of g h = some x := (handle_of_iff_identifier_of hg).mp hh
    have hyx : y ≠ x := by
      rintro rfl
      have := (handle_of_iff_identifier_of hg).mpr hidq
      rw [hh] at this
      injection this with this
      exact hne this.symm
    obtain ⟨idb, hidb, hri⟩ := rtg_child_ident_of_handle hg hr hidh
    have hby : idb = y := by
      rw [hidq] at hidb
      injection hidb with hv
      exact hv.symm
    exact ⟨hk, hyx, hby ▸ hri⟩
  · rintro ⟨hk, hyx, hri⟩
    obtain ⟨h, hh⟩ := Option.isSome_iff_exists.mp hk
    obtain ⟨hb, hhb, hr⟩ := rtg_child_handle_of_ident hg hri hh
    refine ⟨h, hh, hb, (mem_all_descendants hg).mpr ⟨?_, hr⟩,
      (handle_of_iff_identifier_of hg).mp hhb⟩
    rintro rfl
    have h1 := (handle_of_iff_identifier_of hg).mp hh
    have h2 := (handle_of_iff_identifier_of hg).mp hhb
    rw [h1] at h2
    injection h2 with h2
    exact hyx h2.symm

theorem get_all_parents_congr {g₁ g₂ : Graph} (h₁ : WF g₁) (h₂ : WF g₂)
    (hk : ∀ id, isKnown g₁ id = isKnown g₂ id)
    (hp : ∀ id, get_parents g₁ id = get_parents g₂ id) (id : String) :
    get_all_parents g₁ id = get_all_parents g₂ id := by
  have hrel : identParentRel g₁ = identParentRel g₂ := by
    funext a b
    unfold identParentRel
    rw [hp a]
  ext y
  rw [mem_get_all_parents_iff h₁, mem_get_all_parents_iff h₂, hk, hrel]

theorem get_all_children_congr {g₁ g₂ : Graph} (h₁ : WF g₁) (h₂ : WF g₂)
    (hk : ∀ id, isKnown g₁ id = isKnown g₂ id)
    (hc : ∀ id, get_children g₁ id = get_children g₂ id) (id : String) :
    get_all_children g₁ id = get_all_children g₂ id := by
  have hrel : identChildRel g₁ = identChildRel g₂ := by
    funext a b
    unfold identChildRel
    rw [hc a]
  ext y
  rw [mem_get_all_children_iff h₁, mem_get_all_children_iff h₂, hk, hrel]

/-! ### Persistence round trip: structural lemmas -/

theorem buildEntries_length (ids : List String) :
    ∀ (i : Nat) (rs : List VocabRecord), (buildEntries ids i rs).length = rs.length := by
  intro i rs
  induction rs generalizing i with
  | nil => rfl
  | cons r rest ih =>
    show (bCon ids i r :: buildEntries ids (i + 1) rest).length = rest.length + 1
    rw [List.length_cons, ih (i + 1)]

theorem find?_buildEntries (ids : List String) :
    ∀ (rs : List VocabRecord) (i h : Nat),
      (buildEntries ids i rs).find? (fun e => e.handle == h) =
        if i ≤ h ∧ h < i + rs.length then
          some (bCon ids h (rs.getD (h - i) ⟨"", none, [], []⟩)) else none := by
  intro rs
  induction rs with
  | nil =>
    intro i h
    simp only [List.length_nil]
    rw [if_neg (by omega)]
    rfl
  | cons r rest ih =>
    intro i h
    show (bCon ids i r :: buildEntries ids (i + 1) rest).find? (fun e => e.handle == h) = _
    by_cases hih : i = h
    · subst hih
      rw [List.find?_cons_of_pos _ (by simp [bCon])]
      rw [if_pos (by simp only [List.length_cons]; omega)]
      simp only [Nat.sub_self, List.getD_cons_zero]
    · rw [List.find?_cons_of_neg _ (by simp [bCon, hih])]
      rw [ih (i + 1)]
      by_cases hlt : i + 1 ≤ h ∧ h < i + 1 + rest.length
      · rw [if_pos hlt, if_pos (by simp only [List.length_cons]; omega)]
        have hsub : h - i = (h - (i + 1)) + 1 := by omega
        rw [hsub, List.getD_cons_succ]
      · rw [if_neg hlt, if_neg (by simp only [List.length_cons]; omega)]

theorem entryOf_buildFrom (rs : List VocabRecord) (h : Nat) :
    entryOf (buildFrom rs) h =
      if h < rs.length then
        some (bCon (rs.map (fun r => r.ident)) h (rs.getD h ⟨"", none, [], []⟩))
      else none := by
  unfold entryOf buildFrom
  rw [find?_buildEntries]
  by_cases hlt : h < rs.length
  · rw [if_pos (by omega), if_pos hlt, Nat.sub_zero]
  · rw [if_neg (by omega), if_neg hlt]

theorem map_ident_buildEntries (ids : List String) :
    ∀ (i : Nat) (rs : List VocabRecord),
      (buildEntries ids i rs).map (fun e => e.ident) = rs.map (fun r => r.ident) := by
  intro i rs
  induction rs generalizing i with
  | nil => rfl
  | cons r rest ih =>
    show (bCon ids i r).ident :: (buildEntries ids (i + 1) rest).map (fun e => e.ident)
      = r.ident :: rest.map (fun r => r.ident)
    rw [ih (i + 1)]
    rfl

theorem identsList_buildFrom (rs : List VocabRecord) :
    identsList (buildFrom rs) = rs.map (fun r => r.ident) :=
  map_ident_buildEntries _ 0 rs

theorem map_handle_buildEntries (ids : List String) :
    ∀ (i : Nat) (rs : List VocabRecord),
      (buildEntries ids i rs).map (fun e => e.handle) = List.range' i rs.length := by
  intro i rs
  induction rs generalizing i with
  | nil => rfl
  | cons r rest ih =>
    show (bCon ids i r).handle :: (buildEntries ids (i + 1) rest).map (fun e => e.handle)
      = List.range' i (rest.length + 1)
    rw [ih (i + 1), List.range'_succ]
    rfl

theorem handlesList_buildFrom (rs : List VocabRecord) :
    handlesList (buildFrom rs) = List.range' 0 rs.length :=
  map_handle_buildEntries _ 0 rs

theorem mem_buildEntries (ids : List String) :
    ∀ (i : Nat) (rs : List VocabRecord) (e' : CodeEntry),
      e' ∈ buildEntries ids i rs ↔
        ∃ j, ∃ _ : j < rs.length,
          e' = bCon ids (i + j) (rs.getD j ⟨"", none, [], []⟩) := by
  intro i rs
  induction rs generalizing i with
  | nil =>
    intro e'
    show e' ∈ ([] : List CodeEntry) ↔ _
    simp
  | cons r rest ih =>
    intro e'
    show e' ∈ bCon ids i r :: buildEntries ids (i + 1) rest ↔ _
    rw [List.mem_cons, ih (i + 1)]
    constructor
    · rintro (rfl | ⟨j, hj, rfl⟩)
      · exact ⟨0, by simp, by simp⟩
      · refine ⟨j + 1, by simp only [List.length_cons]; omega, ?_⟩
        rw [List.getD_cons_succ]
        congr 1
        omega
    · rintro ⟨j, hj, rfl⟩
      cases j with
      | zero =>
        exact Or.inl (by simp)
      | succ k =>
        refine Or.inr ⟨k, by simp only [List.length_cons] at hj; omega, ?_⟩
        rw [List.getD_cons_succ]
        congr 1
        omega

theorem length_serialize (g : Graph) : (serialize g).length = numCodes g := by
  unfold serialize numCodes
  exact List.length_map g.entries (sRec g)

theorem map_ident_serialize (g : Graph) :
    (serialize g).map (fun r => r.ident) = identsList g := by
  unfold serialize identsList
  rw [List.map_map]
  rfl

theorem serialize_getD {g : Graph} {j : Nat} (hj : j < numCodes g) :
    (serialize g).getD j ⟨"", none, [], []⟩ =
      sRec g (g.entries.get ⟨j, hj⟩) := by
  have hj' : j < (serialize g).length := by rw [length_serialize]; exact hj
  rw [List.getD_eq_getElem _ _ hj']
  unfold serialize
  exact List.getElem_map (sRec g)

/-! ### Persistence round trip: entry correspondence -/

theorem entryOf_rt {g : Graph} {j : Nat} (hj : j < numCodes g) :
    entryOf (buildFrom (serialize g)) j =
      some (bCon (identsList g) j (sRec g (g.entries.get ⟨j, hj⟩))) := by
  rw [entryOf_buildFrom]
  rw [if_pos (by rw [length_serialize]; exact hj)]
  rw [map_ident_serialize, serialize_getD hj]

theorem entryOf_rt_none {g : Graph} {j : Nat} (hj : ¬ j < numCodes g) :
    entryOf (buildFrom (serialize g)) j = none := by
  rw [entryOf_buildFrom]
  rw [if_neg (by rw [length_serialize]; exact hj)]

theorem identifier_of_registered {g : Graph} (hnd : (handlesList g).Nodup)
    {e : CodeEntry} (he : e ∈ g.entries) :
    identifier_of g e.handle = some e.ident := by
  unfold identifier_of
  rw [entryOf_self hnd he]
  rfl

theorem identifier_of_unregistered {g : Graph} {p : Nat}
    (hreg : p ∉ handlesList g) : identifier_of g p = none := by
  unfold identifier_of
  cases he : entryOf g p with
  | none => rfl
  | some e =>
    obtain ⟨hmem, hh⟩ := entryOf_spec he
    exact absurd (hh ▸ mem_handlesList.mpr ⟨e, hmem, rfl⟩) hreg

theorem idxOf?_handles_getElem {g : Graph} (hnd : (handlesList g).Nodup)
    {j : Nat} (hj : j < numCodes g) :
    idxOf? (handlesList g) ((g.entries.get ⟨j, hj⟩).handle) = some j := by
  have hj' : j < (handlesList g).length := by
    unfold handlesList
    rw [List.length_map]
    exact hj
  have hget : (handlesList g).get ⟨j, hj'⟩ = (g.entries.get ⟨j, hj⟩).handle := by
    unfold handlesList
    simp
  rw [← hget]
  exact idxOf?_getElem_self hnd hj'

theorem idxOf?_idents_getElem {g : Graph} (hnd : (identsList g).Nodup)
    {j : Nat} (hj : j < numCodes g) :
    idxOf? (identsList g) ((g.entries.get ⟨j, hj⟩).ident) = some j := by
  have hj' : j < (identsList g).length := by
    unfold identsList
    rw [List.length_map]
    exact hj
  have hget : (identsList g).get ⟨j, hj'⟩ = (g.entries.get ⟨j, hj⟩).ident := by
    unfold identsList
    simp
  rw [← hget]
  exact idxOf?_getElem_self hnd hj'

theorem handlesList_getElem_of_idxOf? {g : Graph} {p q : Nat}
    (h : idxOf? (handlesList g) p = some q) :
    ∃ hq : q < numCodes g, (g.entries.get ⟨q, hq⟩).handle = p := by
  have hlt := idxOf?_lt_length h
  have hq : q < numCodes g := by
    unfold handlesList at hlt
    rw [List.length_map] at hlt
    exact hlt
  refine ⟨hq, ?_⟩
  have := idxOf?_getElem h
  have hget : (handlesList g).get ⟨q, hlt⟩ = (g.entries.get ⟨q, hq⟩).handle := by
    unfold handlesList
    simp
  rw [hget] at this
  exact this

/-- The identifier-then-index composite equals direct handle indexing. -/
theorem bind_idxOf_identifier {g : Graph} (hg : WF g) (p : Nat) :
    (identifier_of g p).bind (idxOf? (identsList g)) =
      idxOf? (handlesList g) p := by
  by_cases hreg : p ∈ handlesList g
  · obtain ⟨e, he, hhe⟩ := mem_handlesList.mp hreg
    obtain ⟨j, hj, hej⟩ := exists_get_of_mem he
    have hident : identifier_of g p = some e.ident := by
      rw [← hhe]
      exact identifier_of_registered hg.1 he
    rw [hident, Option.some_bind]
    have h1 : idxOf? (identsList g) e.ident = some j := by
      have := idxOf?_idents_getElem hg.2.1 hj
      rw [hej] at this
      exact this
    have h2 : idxOf? (handlesList g) p = some j := by
      have := idxOf?_handles_getElem hg.1 hj
      rw [hej, hhe] at this
      exact this
    rw [h1, h2]
  · rw [identifier_of_unregistered hreg]
    exact (idxOf?_eq_none_iff.mpr hreg).symm

theorem mem_parents_rt {g : Graph} (hg : WF g) {j q : Nat} (hj : j < numCodes g) :
    q ∈ parents_of (buildFrom (serialize g)) j ↔
      ∃ p ∈ (g.entries.get ⟨j, hj⟩).parents, idxOf? (handlesList g) p = some q := by
  unfold parents_of
  rw [entryOf_rt hj]
  show q ∈ (bCon (identsList g) j (sRec g (g.entries.get ⟨j, hj⟩))).parents ↔ _
  unfold bCon sRec
  simp only []
  rw [List.filterMap_filterMap]
  rw [List.mem_filterMap]
  constructor
  · rintro ⟨p, hp, hq⟩
    rw [bind_idxOf_identifier hg p] at hq
    exact ⟨p, hp, hq⟩
  · rintro ⟨p, hp, hq⟩
    exact ⟨p, hp, by rw [bind_idxOf_identifier hg p]; exact hq⟩

theorem mem_children_rt {g : Graph} (hg : WF g) {j q : Nat} (hj : j < numCodes g) :
    q ∈ children_of (buildFrom (serialize g)) j ↔
      ∃ c ∈ (g.entries.get ⟨j, hj⟩).children, idxOf? (handlesList g) c = some q := by
  unfold children_of
  rw [entryOf_rt hj]
  show q ∈ (bCon (identsList g) j (sRec g (g.entries.get ⟨j, hj⟩))).children ↔ _
  unfold bCon sRec
  simp only []
  rw [List.filterMap_filterMap]
  rw [List.mem_filterMap]
  constructor
  · rintro ⟨c, hc, hq⟩
    rw [bind_idxOf_identifier hg c] at hq
    exact ⟨c, hc, hq⟩
  · rintro ⟨c, hc, hq⟩
    exact ⟨c, hc, by rw [bind_idxOf_identifier hg c]; exact hq⟩

theorem identifier_of_rt {g : Graph} (hg : WF g) {p q : Nat}
    (h : idxOf? (handlesList g) p = some q) :
    identifier_of (buildFrom (serialize g)) q = identifier_of g p := by
  obtain ⟨hq, hqp⟩ := handlesList_getElem_of_idxOf? h
  have h1 : identifier_of (buildFrom (serialize g)) q =
      some ((g.entries.get ⟨q, hq⟩).ident) := by
    unfold identifier_of
    rw [entryOf_rt hq]
    rfl
  have h2 : identifier_of g p = some ((g.entries.get ⟨q, hq⟩).ident) := by
    rw [← hqp]
    exact identifier_of_registered hg.1 (List.get_mem g.entries q hq)
  rw [h1, h2]

theorem entryOfIdent_rt_none {g : Graph} (hg : WF g) {id : String}
    (he : entryOfIdent g id = none) :
    entryOfIdent (buildFrom (serialize g)) id = none := by
  have hid : id ∉ identsList g := by
    intro hmem
    have := entryOfIdent_isSome_iff.mpr hmem
    rw [he] at this
    exact absurd this (by simp)
  unfold entryOfIdent
  rw [List.find?_eq_none]
  intro e' he'
  have : e'.ident ∈ identsList (buildFrom (serialize g)) :=
    mem_identsList.mpr ⟨e', he', rfl⟩
  rw [identsList_buildFrom, map_ident_serialize] at this
  simp only [beq_iff_eq]
  intro hcc
  exact hid (hcc ▸ this)

theorem entryOfIdent_rt_some {g : Graph} (hg : WF g) {id : String} {j : Nat}
    (hj : j < numCodes g) (hid : (g.entries.get ⟨j, hj⟩).ident = id) :
    entryOfIdent (buildFrom (serialize g)) id =
      some (bCon (identsList g) j (sRec g (g.entries.get ⟨j, hj⟩))) := by
  have hmem : bCon (identsList g) j (sRec g (g.entries.get ⟨j, hj⟩)) ∈
      (buildFrom (serialize g)).entries :=
    List.mem_of_find?_eq_some (entryOf_rt hj)
  have hnd : (identsList (buildFrom (serialize g))).Nodup := by
    rw [identsList_buildFrom, map_ident_serialize]
    exact hg.2.1
  have hident : (bCon (identsList g) j (sRec g (g.entries.get ⟨j, hj⟩))).ident = id := hid
  have := entryOfIdent_self hnd hmem
  rw [hident] at this
  exact this

theorem WF_rt {g : Graph} (hg : WF g) : WF (buildFrom (serialize g)) := by
  have hhl : handlesList (buildFrom (serialize g)) = List.range' 0 (numCodes g) := by
    rw [handlesList_buildFrom, length_serialize]
  have hent : ∀ e' ∈ (buildFrom (serialize g)).entries,
      ∃ j, ∃ hj : j < numCodes g,
        e' = bCon (identsList g) j (sRec g (g.entries.get ⟨j, hj⟩)) := by
    intro e' he'
    have he'' : e' ∈ buildEntries ((serialize g).map (fun r => r.ident)) 0 (serialize g) := he'
    obtain ⟨j, hj, hje⟩ := (mem_buildEntries _ 0 (serialize g) e').mp he''
    have hj' : j < numCodes g := by rw [← length_serialize]; exact hj
    refine ⟨j, hj', ?_⟩
    rw [hje, map_ident_serialize, serialize_getD hj']
    congr 1
    omega
  refine ⟨?_, ?_, ?_, ?_, ?_, ?_⟩
  · rw [hhl]
    exact List.nodup_range' 0 (numCodes g)
  · rw [identsList_buildFrom, map_ident_serialize]
    exact hg.2.1
  · intro e' he' q hq
    obtain ⟨j, hj, rfl⟩ := hent e' he'
    have hq' : q ∈ parents_of (buildFrom (serialize g)) j := by
      unfold parents_of
      rw [entryOf_rt hj]
      exact hq
    obtain ⟨p, _, hpq⟩ := (mem_parents_rt hg hj).mp hq'
    obtain ⟨hqlt, _⟩ := handlesList_getElem_of_idxOf? hpq
    rw [hhl, List.mem_range']
    exact ⟨q, hqlt, by omega⟩
  · intro e' he' q hq
    obtain ⟨j, hj, rfl⟩ := hent e' he'
    have hq' : q ∈ children_of (buildFrom (serialize g)) j := by
      unfold children_of
      rw [entryOf_rt hj]
      exact hq
    obtain ⟨c, _, hcq⟩ := (mem_children_rt hg hj).mp hq'
    obtain ⟨hqlt, _⟩ := handlesList_getElem_of_idxOf? hcq
    rw [hhl, List.mem_range']
    exact ⟨q, hqlt, by omega⟩
  · intro e' he' q hq
    obtain ⟨j, hj, rfl⟩ := hent e' he'
    have hq' : q ∈ parents_of (buildFrom (serialize g)) j := by
      unfold parents_of
      rw [entryOf_rt hj]
      exact hq
    obtain ⟨p, hpmem, hpq⟩ := (mem_parents_rt hg hj).mp hq'
    obtain ⟨hqlt, hqp⟩ := handlesList_getElem_of_idxOf? hpq
    have hhandle : (bCon (identsList g) j (sRec g (g.entries.get ⟨j, hj⟩))).handle = j := rfl
    rw [hhandle]
    rw [mem_children_rt hg hqlt]
    refine ⟨(g.entries.get ⟨j, hj⟩).handle, ?_, idxOf?_handles_getElem hg.1 hj⟩
    have hdual : (g.entries.get ⟨j, hj⟩).handle ∈ children_of g p :=
      hg.2.2.2.2.1 (g.entries.get ⟨j, hj⟩) (List.get_mem g.entries j hj) p hpmem
    have hco : children_of g p = (g.entries.get ⟨q, hqlt⟩).children := by
      unfold children_of
      rw [← hqp, entryOf_self hg.1 (List.get_mem g.entries q hqlt)]
      rfl
    rw [hco] at hdual
    exact hdual
  · intro e' he' q hq
    obtain ⟨j, hj, rfl⟩ := hent e' he'
    have hq' : q ∈ children_of (buildFrom (serialize g)) j := by
      unfold children_of
      rw [entryOf_rt hj]
      exact hq
    obtain ⟨c, hcmem, hcq⟩ := (mem_children_rt hg hj).mp hq'
    obtain ⟨hqlt, hqc⟩ := handlesList_getElem_of_idxOf? hcq
    have hhandle : (bCon (identsList g) j (sRec g (g.entries.get ⟨j, hj⟩))).handle = j := rfl
    rw [hhandle]
    rw [mem_parents_rt hg hqlt]
    refine ⟨(g.entries.get ⟨j, hj⟩).handle, ?_, idxOf?_handles_getElem hg.1 hj⟩
    have hdual : (g.entries.get ⟨j, hj⟩).handle ∈ parents_of g c :=
      hg.2.2.2.2.2 (g.entries.get ⟨j, hj⟩) (List.get_mem g.entries j hj) c hcmem
    have hpo : parents_of g c = (g.entries.get ⟨q, hqlt⟩).parents := by
      unfold parents_of
      rw [← hqc, entryOf_self hg.1 (List.get_mem g.entries q hqlt)]
      rfl
    rw [hpo] at hdual
    exact hdual

theorem deserialize_serialize {g : Graph} (hg : WF g) :
    deserialize (serialize g) = some (buildFrom (serialize g)) := by
  unfold deserialize
  rw [if_pos (WF_rt hg)]

/-! ### Persistence round trip: query equivalence -/

theorem isKnown_rt {g : Graph} (hg : WF g) (id : String) :
    isKnown (buildFrom (serialize g)) id = isKnown g id := by
  unfold isKnown handle_of
  cases he : entryOfIdent g id with
  | none => rw [entryOfIdent_rt_none hg he]
  | some e =>
    obtain ⟨j, hj, hej⟩ := exists_get_of_mem (entryOfIdent_spec he).1
    have hid : (g.entries.get ⟨j, hj⟩).ident = id := by
      rw [hej]
      exact (entryOfIdent_spec he).2
    rw [entryOfIdent_rt_some hg hj hid]
    rfl

theorem get_description_rt {g : Graph} (hg : WF g) (id : String) :
    get_description (buildFrom (serialize g)) id = get_description g id := by
  unfold get_description
  cases he : entryOfIdent g id with
  | none => rw [entryOfIdent_rt_none hg he]
  | some e =>
    obtain ⟨j, hj, hej⟩ := exists_get_of_mem (entryOfIdent_spec he).1
    have hid : (g.entries.get ⟨j, hj⟩).ident = id := by
      rw [hej]
      exact (entryOfIdent_spec he).2
    rw [entryOfIdent_rt_some hg hj hid]
    show (sRec g (g.entries.get ⟨j, hj⟩)).descr = e.descr
    rw [hej]
    rfl

theorem get_parents_rt {g : Graph} (hg : WF g) (id : String) :
    get_parents (buildFrom (serialize g)) id = get_parents g id := by
  ext pid
  rw [mem_get_parents, mem_get_parents]
  cases he : entryOfIdent g id with
  | none =>
    have h1 : handle_of g id = none := by
      unfold handle_of
      rw [he]
      rfl
    have h2 : handle_of (buildFrom (serialize g)) id = none := by
      unfold handle_of
      rw [entryOfIdent_rt_none hg he]
      rfl
    simp [h1, h2]
  | some e =>
    obtain ⟨j, hj, hej⟩ := exists_get_of_mem (entryOfIdent_spec he).1
    have hid : (g.entries.get ⟨j, hj⟩).ident = id := by
      rw [hej]
      exact (entryOfIdent_spec he).2
    have h2 : handle_of (buildFrom (serialize g)) id = some j := by
      unfold handle_of
      rw [entryOfIdent_rt_some hg hj hid]
      rfl
    have h1 : handle_of g id = some e.handle := by
      unfold handle_of
      rw [he]
      rfl
    have hpar : parents_of g e.handle = (g.entries.get ⟨j, hj⟩).parents := by
      unfold parents_of
      rw [entryOf_self hg.1 (entryOfIdent_spec he).1, hej]
      rfl
    constructor
    · rintro ⟨h', hh', q, hq, hqid⟩
      have hh'' : h' = j := by
        rw [h2] at hh'
        injection hh' with hv
        exact hv.symm
      subst hh''
      obtain ⟨p, hp, hpq⟩ := (mem_parents_rt hg hj).mp hq
      refine ⟨e.handle, h1, p, ?_, ?_⟩
      · rw [hpar]
        exact hp
      · rw [← identifier_of_rt hg hpq]
        exact hqid
    · rintro ⟨h', hh', p, hp, hpid⟩
      have hh'' : h' = e.handle := by
        rw [h1] at hh'
        injection hh' with hv
        exact hv.symm
      subst hh''
      rw [hpar] at hp
      have hreg : p ∈ handlesList g :=
        hg.2.2.1 _ (List.get_mem g.entries j hj) p hp
      obtain ⟨q, hq⟩ := idxOf?_isSome_of_mem hreg
      refine ⟨j, h2, q, (mem_parents_rt hg hj).mpr ⟨p, hp, hq⟩, ?_⟩
      rw [identifier_of_rt hg hq]
      exact hpid

theorem get_children_rt {g : Graph} (hg : WF g) (id : String) :
    get_children (buildFrom (serialize g)) id = get_children g id := by
  ext cid
  rw [mem_get_children, mem_get_children]
  cases he : entryOfIdent g id with
  | none =>
    have h1 : handle_of g id = none := by
      unfold handle_of
      rw [he]
      rfl
    have h2 : handle_of (buildFrom (serialize g)) id = none := by
      unfold handle_of
      rw [entryOfIdent_rt_none hg he]
      rfl
    simp [h1, h2]
  | some e =>
    obtain ⟨j, hj, hej⟩ := exists_get_of_mem (entryOfIdent_spec he).1
    have hid : (g.entries.get ⟨j, hj⟩).ident = id := by
      rw [hej]
      exact (entryOfIdent_spec he).2
    have h2 : handle_of (buildFrom (serialize g)) id = some j := by
      unfold handle_of
      rw [entryOfIdent_rt_some hg hj hid]
      rfl
    have h1 : handle_of g id = some e.handle := by
      unfold handle_of
      rw [he]
      rfl
    have hch : children_of g e.handle = (g.entries.get ⟨j, hj⟩).children := by
      unfold children_of
      rw [entryOf_self hg.1 (entryOfIdent_spec he).1, hej]
      rfl
    constructor
    · rintro ⟨h', hh', q, hq, hqid⟩
      have hh'' : h' = j := by
        rw [h2] at hh'
        injection hh' with hv
        exact hv.symm
      subst hh''
      obtain ⟨c, hc, hcq⟩ := (mem_children_rt hg hj).mp hq
      refine ⟨e.handle, h1, c, ?_, ?_⟩
      · rw [hch]
        exact hc
      · rw [← identifier_of_rt hg hcq]
        exact hqid
    · rintro ⟨h', hh', c, hc, hcid⟩
      have hh'' : h' = e.handle := by
        rw [h1] at hh'
        injection hh' with hv
        exact hv.symm
      subst hh''
      rw [hch] at hc
      have hreg : c ∈ handlesList g :=
        hg.2.2.2.1 _ (List.get_mem g.entries j hj) c hc
      obtain ⟨q, hq⟩ := idxOf?_isSome_of_mem hreg
      refine ⟨j, h2, q, (mem_children_rt hg hj).mpr ⟨c, hc, hq⟩, ?_⟩
      rw [identifier_of_rt hg hq]
      exact hcid

/-! ### The claimed properties -/

/-- C1: for every code handle `h`, `all_ancestors h` (publicly
`get_all_parents`) returns exactly the set of handles reachable from `h`
by repeatedly following `parents_of`, excluding the start handle itself;
on the diamond graph where `C` has parents `A` and `B` and both have
parent `Root`, `get_all_parents "C" = {A, B, Root}` with `Root` once (the
result is a set). -/
theorem all_ancestors_reachable_spec (g : Graph) (h : Nat) (hg : WF g) :
    (∀ x, x ∈ all_ancestors g h ↔
      x ≠ h ∧ Relation.ReflTransGen (parentRel g) h x)
    ∧ get_all_parents diamondG "C" = {"A", "B", "Root"} := by
  refine ⟨fun x => mem_all_ancestors hg, ?_⟩
  decide

theorem all_ancestors_reachable_witness :
    get_all_parents diamondG "C" = {"A", "B", "Root"} :=
  (all_ancestors_reachable_spec diamondG 3 (by decide)).2

/-- C2: `prune(S)` produces a graph containing exactly the codes in
`retain` = known used handles united with all their ancestors (identifiers
and descriptions preserved) and exactly the edges whose both endpoints are
retained; on the graph with edges `A→B`, `A→C`, `B→D`, `C→D`,
`prune {"D"}` retains exactly `{A, B, C, D}` and all four edges (the
pruned graph is the whole graph). -/
theorem prune_retains_exactly (g : Graph) (used : List String) (hg : WF g) :
    (∀ id, isKnown (prune g used) id = true ↔
      ∃ h, handle_of g id = some h ∧ h ∈ retainSet g used)
    ∧ (∀ id, isKnown (prune g used) id = true →
        get_description (prune g used) id = get_description g id)
    ∧ (∀ c p, p ∈ parents_of (prune g used) c ↔
        p ∈ parents_of g c ∧ p ∈ retainSet g used ∧ c ∈ retainSet g used)
    ∧ (∀ p c, c ∈ children_of (prune g used) p ↔
        c ∈ children_of g p ∧ c ∈ retainSet g used ∧ p ∈ retainSet g used)
    ∧ prune exG ["D"] = exG := by
  refine ⟨isKnown_prune hg used, fun id => get_description_prune hg used, ?_, ?_, by decide⟩
  · intro c p
    exact mem_parents_of_pruneHandles hg.1
  · intro p c
    exact mem_children_of_pruneHandles hg.1

theorem prune_retains_exactly_witness : prune exG ["D"] = exG :=
  (prune_retains_exactly exG ["D"] (by decide)).2.2.2.2

/-- C3: `deserialize (serialize g)` succeeds and is query-equivalent to
`g`: `description_of`, `parents_of`, `children_of`, `all_ancestors` and
`all_descendants` (all keyed by the stable identifiers) answer identically
on the round-tripped graph, even though handle values are renumbered. -/
theorem serialize_roundtrip_query_equiv (g : Graph) (hg : WF g) :
    deserialize (serialize g) = some (buildFrom (serialize g))
    ∧ (∀ id, isKnown (buildFrom (serialize g)) id = isKnown g id)
    ∧ (∀ id, get_description (buildFrom (serialize g)) id = get_description g id)
    ∧ (∀ id, get_parents (buildFrom (serialize g)) id = get_parents g id)
    ∧ (∀ id, get_children (buildFrom (serialize g)) id = get_children g id)
    ∧ (∀ id, get_all_parents (buildFrom (serialize g)) id = get_all_parents g id)
    ∧ (∀ id, get_all_children (buildFrom (serialize g)) id = get_all_children g id) :=
  ⟨deserialize_serialize hg, isKnown_rt hg, get_description_rt hg,
    get_parents_rt hg, get_children_rt hg,
    get_all_parents_congr (WF_rt hg) hg (isKnown_rt hg) (get_parents_rt hg),
    get_all_children_congr (WF_rt hg) hg (isKnown_rt hg) (get_children_rt hg)⟩

theorem serialize_roundtrip_witness :
    deserialize (serialize exG) = some (buildFrom (serialize exG)) :=
  (serialize_roundtrip_query_equiv exG (by decide)).1

/-- C4: the dual-index invariant (for all codes `c` and `p`, `p` is a
direct parent of `c` iff `c` is a direct child of `p`) holds in every
well-formed graph and is preserved by construction (`register`,
`add_edge`), by `merge_metadata`, by pruning and by deserialization, and
holds in the empty graph construction starts from. -/
theorem dual_index_invariant (g : Graph) (hg : WF g) (id : String)
    (d : Option String) (ds : String) (p c : Nat) (used : List String)
    (rs : List VocabRecord) :
    DualIndex g
    ∧ DualIndex (register g id d).1
    ∧ DualIndex (merge_metadata g id ds)
    ∧ (∀ g', add_edge g p c = Except.ok g' → DualIndex g')
    ∧ DualIndex (prune g used)
    ∧ (∀ g', deserialize rs = some g' → DualIndex g')
    ∧ DualIndex emptyGraph :=
  ⟨wf_dual hg, wf_dual (WF_register hg id d), wf_dual (WF_merge_metadata hg id ds),
    fun _ h => wf_dual (WF_add_edge hg h), wf_dual (WF_prune hg used),
    fun _ h => wf_dual (WF_deserialize h), wf_dual WF_emptyGraph⟩

theorem dual_index_invariant_witness : DualIndex (prune exG ["D"]) :=
  (dual_index_invariant exG (by decide) "X" none "d" 0 1 ["D"] []).2.2.2.2.1

/-- C5: pruning is idempotent: applying `prune S` to the result of
`prune S` yields a graph identical to `prune S`. -/
theorem prune_idempotent (g : Graph) (used : List String) (hg : WF g) :
    prune (prune g used) used = prune g used :=
  prune_prune hg used

theorem prune_idempotent_witness :
    prune (prune exG ["D"]) ["D"] = prune exG ["D"] :=
  prune_idempotent exG ["D"] (by decide)

/-- C6: prune never fails on identifiers unknown to the Registry: unknown
members of the used set are silently ignored (the result only depends on
the known members), and `prune {"NOT/REAL"}` on a graph lacking that
identifier succeeds and yields the empty graph. -/
theorem prune_ignores_unknown (g : Graph) (unk used : List String)
    (h : ∀ u ∈ unk, handle_of g u = none) :
    prune g (unk ++ used) = prune g used
    ∧ prune exG ["NOT/REAL"] = emptyGraph := by
  refine ⟨prune_append_unknown h, ?_⟩
  decide

theorem prune_ignores_unknown_witness :
    prune exG (["NOT/REAL"] ++ ["D"]) = prune exG ["D"] :=
  (prune_ignores_unknown exG ["NOT/REAL"] ["D"] (by decide)).1

/-- C7: the closure queries terminate on every graph, cycles included (the
model's saturation is total by construction, with no acyclicity
hypothesis), they return exactly the reachable closure, and on the
concrete cyclic graph `X0 → X1 → X2 → X0` the cyclic nodes are included in
the closure rather than causing a failure. -/
theorem all_descendants_cycle_tolerant (g : Graph) (h : Nat) (hg : WF g) :
    (∀ x, x ∈ all_descendants g h ↔
      x ≠ h ∧ Relation.ReflTransGen (childRel g) h x)
    ∧ WF cycleG
    ∧ all_descendants cycleG 0 = {1, 2}
    ∧ all_ancestors cycleG 0 = {1, 2} := by
  refine ⟨fun x => mem_all_descendants hg, by decide, by decide, by decide⟩

theorem all_descendants_cycle_tolerant_witness :
    all_descendants cycleG 0 = {1, 2} :=
  (all_descendants_cycle_tolerant cycleG 0 (by decide)).2.2.1

/-- C8: for every code retained by `prune S`, its descendants after
pruning are exactly the subset of its original descendants that are also
in the retained set. -/
theorem descendants_after_prune (g : Graph) (used : List String) (h : Nat)
    (hg : WF g) (hh : h ∈ retainSet g used) :
    all_descendants (prune g used) h = all_descendants g h ∩ retainSet g used :=
  all_descendants_pruneHandles hg (retain_parent_closed hg used) hh

theorem descendants_after_prune_witness :
    all_descendants (prune exG ["D"]) 0 =
      all_descendants exG 0 ∩ retainSet exG ["D"] :=
  descendants_after_prune exG ["D"] 0 (by decide) (by decide)

/-- C9 (counterexample): the claim "fails with SelfLoop whenever parent
equals child" is false as stated: on the self-loop `0 → 0` with the
endpoint unregistered, `add_edge` fails with `InvalidHandle` (the
unregistered-endpoint check the spec lists first), not `SelfLoop`. -/
theorem add_edge_selfloop_unregistered_cex :
    add_edge emptyGraph 0 0 ≠ Except.error EdgeError.SelfLoop
    ∧ add_edge emptyGraph 0 0 = Except.error EdgeError.InvalidHandle := by
  decide

/-- C9 (amended): `add_edge` fails with `InvalidHandle` whenever either
endpoint is unregistered; fails with `SelfLoop` whenever both endpoints
are registered and parent equals child; and is otherwise idempotent:
adding the same edge twice leaves the Edge Store identical to adding it
once. -/
theorem add_edge_edge_store_spec (g : Graph) (p c : Nat) :
    (((entryOf g p).isNone ∨ (entryOf g c).isNone) →
      add_edge g p c = Except.error EdgeError.InvalidHandle)
    ∧ ((entryOf g p).isSome = true → (entryOf g c).isSome = true → p = c →
      add_edge g p c = Except.error EdgeError.SelfLoop)
    ∧ (∀ g', add_edge g p c = Except.ok g' → add_edge g' p c = Except.ok g') :=
  ⟨add_edge_invalid, add_edge_selfloop, fun _ => add_edge_idem⟩

end FemrOntology
